import Mathlib

/-!
Verification development for the p4go client-side session engine: a shallow
embedding of its result model, output dispatcher, command session facade,
resolve negotiator, specification translator and diagnostic-code decoders,
with theorems settling the specification's claims about them.

Text payloads are modelled as `List Char`; dictionaries as insertion-ordered
association lists; machine integers as `Nat`.
-/

namespace P4Go

/-- Text payload: the characters of a C string / StrBuf. -/
abbrev Str := List Char

/-- Insertion-ordered string dictionary (StrDict / StrBufDict). -/
abbrev Dict := List (Str × Str)

/-- First-match lookup in an association list keyed by `Str`
(StrDict::GetVar). -/
def lookupStr {α : Type} : List (Str × α) → Str → Option α
  | [], _ => none
  | (k, v) :: rest, t => if k = t then some v else lookupStr rest t

/-- Decimal rendering of a `Nat`, fuel-driven so that it is structurally
recursive (the fuel `n + 1` always suffices). -/
def natStrF : Nat → Nat → Str
  | 0, _ => []
  | fuel + 1, n =>
    if n < 10 then [Nat.digitChar n]
    else natStrF fuel (n / 10) ++ [Nat.digitChar (n % 10)]

/-- Decimal rendering of a `Nat` ("0", "1", "2", ...), used for the numeric
suffixes of repeated spec fields (`Tag0`, `Tag1`, ...). -/
def natStr (n : Nat) : Str := natStrF (n + 1) n

/-- True when the text does not end in a decimal digit; schema tags satisfy
this, which keeps `Tag ++ natStr i` keys of distinct tags distinct. -/
def noDigitTail (t : Str) : Bool :=
  match t.getLast? with
  | some c => !c.isDigit
  | none => true

/-! ## Diagnostic message codes (p4.go, P4Message decoders)

The Go decoders act on one line's numeric `code`; a code is a packed 32-bit
record. They are embedded here as functions of the code value. -/

namespace P4Message

/-- `func (e *P4Message) SubCode(i int) int { return (e.lines[i].code >> 0) & 0x3ff }` -/
def SubCode (c : Nat) : Nat := (c >>> 0) &&& 0x3ff

/-- `func (e *P4Message) Subsystem(i int) int { return (e.lines[i].code >> 10) & 0x3f }` -/
def Subsystem (c : Nat) : Nat := (c >>> 10) &&& 0x3f

/-- `func (e *P4Message) Generic(i int) int { return (e.lines[i].code >> 16) & 0xff }` -/
def Generic (c : Nat) : Nat := (c >>> 16) &&& 0xff

/-- `func (e *P4Message) ArgCount(i int) int { return (e.lines[i].code >> 24) & 0x0f }` -/
def ArgCount (c : Nat) : Nat := (c >>> 24) &&& 0x0f

/-- `func (e *P4Message) LineSeverity(i int) ... { return ... (e.lines[i].code >> 28) & 0x0f }` -/
def LineSeverity (c : Nat) : Nat := (c >>> 28) &&& 0x0f

/-- `func (e *P4Message) UniqueCode(i int) int { return e.lines[i].code & 0xffff }` -/
def UniqueCode (c : Nat) : Nat := c &&& 0xffff

end P4Message

/-! ## Resolve data (p4gomergedata.cpp, P4GoMergeData) -/

/-- The resolve decisions (Go `P4MergeStatus`, C++ `MergeStatus`):
Quit, Skip, AcceptMerged, AcceptEdited, AcceptTheirs, AcceptYours. -/
inductive MergeStatus where
  | quit
  | skip
  | merged
  | edit
  | theirs
  | yours
deriving DecidableEq

/-- Severity of a diagnostic (E_EMPTY, E_INFO, E_WARN, E_FAILED, E_FATAL). -/
inductive Severity where
  | empty
  | info
  | warn
  | failed
  | fatal
deriving DecidableEq

/-- A diagnostic message (C++ `Error`): its overall severity and its
formatted text. -/
structure Msg where
  severity : Severity
  text : Str
deriving DecidableEq

/-- The engine's content merger (external `ClientMerge`): the four file
identities and the precomputed auto-resolve hint. -/
structure ClientMerge where
  autoHint : MergeStatus
  yourFile : Option Str
  theirFile : Option Str
  baseFile : Option Str
  resultFile : Option Str
deriving DecidableEq

/-- The engine's action merger (external `ClientResolveA`): the action
diagnostics and the precomputed auto-resolve hint. -/
structure ClientResolveA where
  autoHint : MergeStatus
  mergeAction : Msg
  yoursAction : Msg
  theirAction : Msg
  typeDiag : Msg
deriving DecidableEq

/-- `P4GoMergeData`: exactly one of `merger` / `actionmerger` is set by the
two constructors; `hint` is the merger's AutoResolve result; the names come
from the RPC variable list. -/
structure P4GoMergeData where
  merger : Option ClientMerge
  actionmerger : Option ClientResolveA
  hint : MergeStatus
  base : Str
  yours : Str
  theirs : Str
deriving DecidableEq

/-- Content-resolve constructor `P4GoMergeData(ui, ClientMerge*, info)`:
sets `merger`, leaves `actionmerger` null, takes the hint from
`m->AutoResolve(CMF_FORCE)` and the names from `ui->varList`. -/
def mkContentMergeData (varList : Dict) (m : ClientMerge) : P4GoMergeData :=
  { merger := some m
    actionmerger := none
    hint := m.autoHint
    base := (lookupStr varList "baseName".toList).getD []
    yours := (lookupStr varList "yourName".toList).getD []
    theirs := (lookupStr varList "theirName".toList).getD [] }

/-- Action-resolve constructor `P4GoMergeData(ui, ClientResolveA*, info)`:
sets `actionmerger`, leaves `merger` null; the name strings stay empty. -/
def mkActionMergeData (_varList : Dict) (m : ClientResolveA) : P4GoMergeData :=
  { merger := none
    actionmerger := some m
    hint := m.autoHint
    base := []
    yours := []
    theirs := [] }

namespace P4GoMergeData

/-- `GetYourName`: `if( merger && yours.Length() ) return yours.Text(); else return 0;` -/
def GetYourName (md : P4GoMergeData) : Option Str :=
  if md.merger.isSome ∧ md.yours ≠ [] then some md.yours else none

/-- `GetTheirName`: null unless a content merger is set and the name is nonempty. -/
def GetTheirName (md : P4GoMergeData) : Option Str :=
  if md.merger.isSome ∧ md.theirs ≠ [] then some md.theirs else none

/-- `GetBaseName`: null unless a content merger is set and the name is nonempty. -/
def GetBaseName (md : P4GoMergeData) : Option Str :=
  if md.merger.isSome ∧ md.base ≠ [] then some md.base else none

/-- `GetYourPath`: `if( merger && merger->GetYourFile() ) ... else return 0;` -/
def GetYourPath (md : P4GoMergeData) : Option Str :=
  match md.merger with
  | some m => m.yourFile
  | none => none

/-- `GetTheirPath`: the their-file path of a content resolve, else null. -/
def GetTheirPath (md : P4GoMergeData) : Option Str :=
  match md.merger with
  | some m => m.theirFile
  | none => none

/-- `GetBasePath`: the base-file path of a content resolve, else null. -/
def GetBasePath (md : P4GoMergeData) : Option Str :=
  match md.merger with
  | some m => m.baseFile
  | none => none

/-- `GetResultPath`: the result-file path of a content resolve, else null. -/
def GetResultPath (md : P4GoMergeData) : Option Str :=
  match md.merger with
  | some m => m.resultFile
  | none => none

/-- `GetMergeHint`: the precomputed auto-resolve hint. -/
def GetMergeHint (md : P4GoMergeData) : MergeStatus := md.hint

/-- `GetActionResolveStatus`: `return actionmerger ? 1 : 0;` -/
def GetActionResolveStatus (md : P4GoMergeData) : Bool := md.actionmerger.isSome

/-- `GetContentResolveStatus`: `return merger ? 1 : 0;` -/
def GetContentResolveStatus (md : P4GoMergeData) : Bool := md.merger.isSome

/-- `GetMergeAction`: the action merger's merge action, null on a content resolve. -/
def GetMergeAction (md : P4GoMergeData) : Option Msg :=
  match md.actionmerger with
  | some m => some m.mergeAction
  | none => none

/-- `GetYoursAction`: null on a content resolve. -/
def GetYoursAction (md : P4GoMergeData) : Option Msg :=
  match md.actionmerger with
  | some m => some m.yoursAction
  | none => none

/-- `GetTheirAction`: null on a content resolve. -/
def GetTheirAction (md : P4GoMergeData) : Option Msg :=
  match md.actionmerger with
  | some m => some m.theirAction
  | none => none

/-- `GetType`: the resolve-kind diagnostic, null on a content resolve. -/
def GetType (md : P4GoMergeData) : Option Msg :=
  match md.actionmerger with
  | some m => some m.typeDiag
  | none => none

end P4GoMergeData

/-- Modelled from the spec: `ClientMerge::Resolve` is part of the external
engine API (not of this repository); on auto-resolve the negotiator
"answers with the engine's own precomputed hint ... without caller
involvement". -/
def ClientMerge.engineResolve (m : ClientMerge) : MergeStatus := m.autoHint

/-- Modelled from the spec: `ClientResolveA::Resolve` is part of the external
engine API; with no handler the engine's own resolve answers with its
precomputed hint. -/
def ClientResolveA.engineResolve (m : ClientResolveA) : MergeStatus := m.autoHint

/-! ## Result model (p4goresult.cpp, P4GoResults) -/

/-- The spec object held by a SPEC result (P4GoSpecData): the parsed form's
dictionary plus the side dictionary of extra fields. -/
structure P4GoSpecData where
  dict : Dict
  extras : Dict
deriving DecidableEq

/-- One result unit (struct P4GoResult, tag `P4GoResultType`):
STRING, BINARY, TRACK, DICT, SPEC or ERROR. -/
inductive RUnit where
  | str (s : Str)
  | bin (s : Str)
  | track (s : Str)
  | dict (d : Dict)
  | spec (sd : P4GoSpecData)
  | msg (m : Msg)
deriving DecidableEq

/-- True on a TRACK unit. -/
def isTrackUnit : RUnit → Bool
  | .track _ => true
  | _ => false

/-- True on a DICT unit. -/
def isDictUnit : RUnit → Bool
  | .dict _ => true
  | _ => false

/-- The ordered result collection with its per-kind counters (P4GoResults). -/
structure P4GoResults where
  items : List RUnit
  infoCount : Nat
  warnCount : Nat
  errorCount : Nat
  trackCount : Nat
  dictCount : Nat
  specCount : Nat
  stringCount : Nat
deriving DecidableEq

/-- The empty collection: no units, all counters zero. -/
def P4GoResults.emptyResults : P4GoResults :=
  { items := [], infoCount := 0, warnCount := 0, errorCount := 0,
    trackCount := 0, dictCount := 0, specCount := 0, stringCount := 0 }

/-- `P4GoResults::Reset`: destroys every stored unit and zeroes every
counter. -/
def P4GoResults.reset (_ : P4GoResults) : P4GoResults := P4GoResults.emptyResults

/-- `P4GoResults::AddOutput(Error*)`: an E_EMPTY message is dropped;
otherwise the message is appended and the matching counter bumped. -/
def P4GoResults.addMsg (r : P4GoResults) (m : Msg) : P4GoResults :=
  if m.severity = .empty then r
  else
    let r := { r with items := r.items ++ [RUnit.msg m] }
    if m.severity = .info then { r with infoCount := r.infoCount + 1 }
    else if m.severity = .warn then { r with warnCount := r.warnCount + 1 }
    else { r with errorCount := r.errorCount + 1 }

/-- `P4GoResults::AddOutput(StrPtr, bool binary)`: appends a STRING or
BINARY unit and bumps `stringCount`. -/
def P4GoResults.addStr (r : P4GoResults) (s : Str) (binary : Bool) : P4GoResults :=
  let u := if binary then RUnit.bin s else RUnit.str s
  { r with items := r.items ++ [u], stringCount := r.stringCount + 1 }

/-- `P4GoResults::AddOutput(StrDict*)`: appends a DICT unit. -/
def P4GoResults.addDict (r : P4GoResults) (d : Dict) : P4GoResults :=
  { r with items := r.items ++ [RUnit.dict d], dictCount := r.dictCount + 1 }

/-- `P4GoResults::AddOutput(P4GoSpecData*)`: appends a SPEC unit. -/
def P4GoResults.addSpec (r : P4GoResults) (sd : P4GoSpecData) : P4GoResults :=
  { r with items := r.items ++ [RUnit.spec sd], specCount := r.specCount + 1 }

/-- `P4GoResults::AddTrack`: appends a TRACK unit. -/
def P4GoResults.addTrack (r : P4GoResults) (s : Str) : P4GoResults :=
  { r with items := r.items ++ [RUnit.track s], trackCount := r.trackCount + 1 }

/-- `P4GoResults::DeleteTrack`: walking from the tail, removes units while
they are TRACK and stops at the first unit that is not (the counters are not
adjusted, as in the code). -/
def P4GoResults.deleteTrack (r : P4GoResults) : P4GoResults :=
  { r with items := (r.items.reverse.dropWhile isTrackUnit).reverse }

/-! ## Output dispatcher (p4goclientuser.cpp, P4GoClientUser) -/

/-- The caller's output handler (P4GoHandler): each callback returns an int,
0 = REPORT, 1 = HANDLED, 2 = CANCEL. `handleTrack` and `handleSpec` exist in
the source but `HandleTrack` is never invoked by this dispatcher and the
`HandleSpec` call is commented out. -/
structure P4GoHandler where
  handleText : Str → Nat
  handleBinary : Str → Nat
  handleStat : Dict → Nat
  handleMessage : Msg → Nat
  handleTrack : Str → Nat
  handleSpec : P4GoSpecData → Nat

/-- The per-command client-user state (P4GoClientUser): the result
collection, the alive flag, the optional handlers, track mode and the RPC
variable list the merge-data constructor reads. -/
structure P4GoClientUser where
  results : P4GoResults
  alive : Bool
  handler : Option P4GoHandler
  resolveHandler : Option (P4GoMergeData → MergeStatus)
  progress : Bool
  sso : Bool
  track : Bool
  varList : Dict

/-- The CANCEL side effect shared by every `CallOutputMethod` overload:
`if( ret == 2 ) alive = 0;`. -/
def applyRet (cu : P4GoClientUser) (ret : Nat) : P4GoClientUser :=
  if ret = 2 then { cu with alive := false } else cu

/-- `ProcessOutput(StrPtr, bool)`: with a handler, offer the data to its
text/binary callback and append only on return 0; without one, append. -/
def processOutputStr (cu : P4GoClientUser) (s : Str) (binary : Bool) : P4GoClientUser :=
  match cu.handler with
  | some h =>
    let ret := if binary then h.handleBinary s else h.handleText s
    let cu := applyRet cu ret
    if ret = 0 then { cu with results := cu.results.addStr s binary } else cu
  | none => { cu with results := cu.results.addStr s binary }

/-- `ProcessOutput(StrDict*)`: same contract through the stat callback. -/
def processOutputDict (cu : P4GoClientUser) (d : Dict) : P4GoClientUser :=
  match cu.handler with
  | some h =>
    let ret := h.handleStat d
    let cu := applyRet cu ret
    if ret = 0 then { cu with results := cu.results.addDict d } else cu
  | none => { cu with results := cu.results.addDict d }

/-- `ProcessOutput(P4GoSpecData*)`: in the source the `HandleSpec` call is
commented out (`int ret = 0; // handler->HandleSpec( data );`), so the
return is always 0 and the spec unit is always appended. -/
def processOutputSpec (cu : P4GoClientUser) (sd : P4GoSpecData) : P4GoClientUser :=
  match cu.handler with
  | some _ =>
    let ret := 0
    let cu := applyRet cu ret
    if ret = 0 then { cu with results := cu.results.addSpec sd } else cu
  | none => { cu with results := cu.results.addSpec sd }

/-- `ProcessMessage(Error*)`: same contract through the message callback. -/
def processMessage (cu : P4GoClientUser) (m : Msg) : P4GoClientUser :=
  match cu.handler with
  | some h =>
    let ret := h.handleMessage m
    let cu := applyRet cu ret
    if ret = 0 then { cu with results := cu.results.addMsg m } else cu
  | none => { cu with results := cu.results.addMsg m }

/-- `StrRef( data + p, i - p )`: the characters from position `p` of length
`len`. -/
def strSub (d : Str) (p len : Nat) : Str := (d.drop p).take len

/-- The character-scanning loop of `OutputText` over track-tagged text,
fuel-driven (`fuel = d.length` always suffices since `i` grows each step):
at each newline, a segment `[p, i)` becomes a TRACK unit and `p` skips the
next line's `"--- "` header; an empty segment (`i ≤ p`) triggers the
fallback, which re-dispatches the whole text as ordinary output and then
calls `DeleteTrack`. -/
def trackAux (d : Str) : P4GoClientUser → Nat → Nat → Nat → P4GoClientUser
  | cu, _, _, 0 => cu
  | cu, p, i, fuel + 1 =>
    if h : i < d.length then
      if d.get ⟨i, h⟩ = '\n' then
        if p < i then
          trackAux d { cu with results := cu.results.addTrack (strSub d p (i - p)) }
            (i + 5) (i + 1) fuel
        else
          let cu := processOutputStr cu d false
          { cu with results := cu.results.deleteTrack }
      else trackAux d cu p (i + 1) fuel
    else cu

/-- The guard of the track path: `length > 4 && data[0] == '-' && data[1] ==
'-' && data[2] == '-' && data[3] == ' '`. -/
def trackTagged (d : Str) : Bool :=
  decide (d.length > 4) && decide (d.take 4 = "--- ".toList)

/-- `P4GoClientUser::OutputText`: in track mode a `"--- "`-tagged text is
decomposed into TRACK units; otherwise it is ordinary text output. -/
def OutputText (cu : P4GoClientUser) (d : Str) : P4GoClientUser :=
  if cu.track && trackTagged d then trackAux d cu 4 4 d.length
  else processOutputStr cu d false

/-- `P4GoClientUser::OutputBinary`. -/
def OutputBinary (cu : P4GoClientUser) (d : Str) : P4GoClientUser :=
  processOutputStr cu d true

/-- One engine output event, after the `OutputStat` spec classification:
a record the engine marks as a form arrives as `specEvent`, a plain record
as `stat`. -/
inductive Event where
  | text (s : Str)
  | binary (s : Str)
  | stat (d : Dict)
  | specEvent (sd : P4GoSpecData)
  | message (m : Msg)

/-- Dispatch of one engine event through the client-user callbacks. -/
def processEvent (cu : P4GoClientUser) : Event → P4GoClientUser
  | .text s => OutputText cu s
  | .binary s => OutputBinary cu s
  | .stat d => processOutputDict cu d
  | .specEvent sd => processOutputSpec cu sd
  | .message m => processMessage cu m

/-- The engine driving one command's output events in arrival order. -/
def runEvents (cu : P4GoClientUser) (events : List Event) : P4GoClientUser :=
  events.foldl processEvent cu

/-- `P4GoClientUser::Reset`: clears the results and restores `alive = 1`. -/
def P4GoClientUser.reset (cu : P4GoClientUser) : P4GoClientUser :=
  { cu with results := cu.results.reset, alive := true }

/-- `P4GoClientUser::SetHandler`: also forces `alive = 1` ("ensure that we
don't drop out after the next call"). -/
def P4GoClientUser.setHandler (cu : P4GoClientUser) (h : Option P4GoHandler) : P4GoClientUser :=
  { cu with handler := h, alive := true }

/-- `P4GoClientUser::SetProgress`: also forces `alive = 1`. -/
def P4GoClientUser.setProgress (cu : P4GoClientUser) (p : Bool) : P4GoClientUser :=
  { cu with progress := p, alive := true }

/-- `P4GoClientUser::SetSSOHandler`: also forces `alive = 1`. -/
def P4GoClientUser.setSSOHandler (cu : P4GoClientUser) (b : Bool) : P4GoClientUser :=
  { cu with sso := b, alive := true }

/-- `P4GoClientUser::SetResolveHandler`: does not touch `alive`. -/
def P4GoClientUser.setResolveHandler (cu : P4GoClientUser)
    (rh : Option (P4GoMergeData → MergeStatus)) : P4GoClientUser :=
  { cu with resolveHandler := rh }

/-- `P4GoClientUser::Resolve(ClientMerge*, Error*)`: with no resolve handler,
`return m->Resolve( e );` — the engine's own resolve, no caller code; with
one, build the merge data and call the handler. The pair's second component
counts handler invocations. -/
def P4GoClientUser.ResolveContent (cu : P4GoClientUser) (m : ClientMerge) :
    MergeStatus × Nat :=
  match cu.resolveHandler with
  | none => (m.engineResolve, 0)
  | some rh => (rh (mkContentMergeData cu.varList m), 1)

/-- `P4GoClientUser::Resolve(ClientResolveA*, int, Error*)`: the action
variant of the same dispatch. -/
def P4GoClientUser.ResolveAction (cu : P4GoClientUser) (m : ClientResolveA) :
    MergeStatus × Nat :=
  match cu.resolveHandler with
  | none => (m.engineResolve, 0)
  | some rh => (rh (mkActionMergeData cu.varList m), 1)

/-! ## Command session facade (p4goclientapi.cpp, P4GoClientApi::Run) -/

/-- The C++ `Error` out-parameter: the ordered list of diagnostics `Set` on
it (`GetErrorCount` is its length). -/
abbrev ErrState := List (Severity × Str)

/-- The "nested Perforce commands" diagnostic text. -/
def nestedCmdMsg : Str := "P4#run - Cannot execute nested Perforce commands.".toList

/-- The "not connected" diagnostic text. -/
def notConnectedMsg : Str := "P4#run - Not connected to a Perforce Server.".toList

/-- The session state around one command (P4GoClientApi): the client user,
the re-entrancy depth, the connection flags and the exception level. -/
structure P4GoClientApi where
  ui : P4GoClientUser
  depth : Nat
  connected : Bool
  dropped : Bool
  exceptionLevel : Nat
  cmdRun : Bool

/-- `P4GoClientApi::Run`: a nested call (`depth != 0`) sets the E_WARN
nested-command error and returns null before touching any state; otherwise
the results of the previous command are cleared (`ui.Reset()`), an
unconnected session sets E_FAILED and returns null, and a connected one runs
the command's events and returns the collection — after tearing the session
down and reconnecting (which clears the results again) when a handler is
set, the connection dropped and the command cancelled. -/
def P4GoClientApi.Run (api : P4GoClientApi) (events : List Event) (e : ErrState) :
    P4GoClientApi × ErrState × Option P4GoResults :=
  if api.depth ≠ 0 then (api, e ++ [(.warn, nestedCmdMsg)], none)
  else
    let api := { api with ui := api.ui.reset }
    if ¬ api.connected then
      (api, if api.exceptionLevel ≠ 0 then e ++ [(.failed, notConnectedMsg)] else e, none)
    else
      let api := { api with ui := runEvents api.ui events, cmdRun := true }
      let api :=
        if api.ui.handler.isSome ∧ api.dropped ∧ api.ui.alive = false then
          { api with ui := api.ui.reset }
        else api
      (api, e, some api.ui.results)

/-- `handleCError` (p4.go): the Go error is nil exactly when
`GetErrorCount(e) == 0` after the call. -/
def goRunError (e : ErrState) : Option ErrState :=
  if e = [] then none else some e

/-- `P4.Run` (p4.go): invoke the C++ `Run` with a fresh `Error`, then read
every unit of the session's result collection in order; the returned error
comes from `handleCError` alone. -/
def goRun (api : P4GoClientApi) (events : List Event) :
    P4GoClientApi × List RUnit × Option ErrState :=
  let r := P4GoClientApi.Run api events []
  (r.1, r.1.ui.results.items, goRunError r.2.1)

/-! ## Concrete states used by counterexamples and witnesses -/

/-- A fresh client user: empty results, alive, no handlers, track off. -/
def cu0 : P4GoClientUser :=
  { results := P4GoResults.emptyResults, alive := true, handler := none,
    resolveHandler := none, progress := false, sso := false, track := false,
    varList := [] }

/-- A handler whose callbacks all return 0 (REPORT). -/
def hReport : P4GoHandler :=
  { handleText := fun _ => 0, handleBinary := fun _ => 0, handleStat := fun _ => 0,
    handleMessage := fun _ => 0, handleTrack := fun _ => 0, handleSpec := fun _ => 0 }

/-- A fresh client user with the all-REPORT handler registered. -/
def cuReport : P4GoClientUser := { cu0 with handler := some hReport }

/-- A fresh connected session at depth 0. -/
def api0 : P4GoClientApi :=
  { ui := cu0, depth := 0, connected := true, dropped := false,
    exceptionLevel := 2, cmdRun := false }

/-- A session with one command already outstanding. -/
def api1 : P4GoClientApi := { api0 with depth := 1 }

/-- An Empty-severity message. -/
def mEmpty : Msg := { severity := .empty, text := [] }

/-- An Info-severity message. -/
def mInfo : Msg := { severity := .info, text := "opened".toList }

/-- A Failed-severity message. -/
def mFailed : Msg := { severity := .failed, text := "no such file(s).".toList }

/-- A first record payload. -/
def dictA : Dict := [("depotFile".toList, "//depot/a".toList)]

/-- A second record payload. -/
def dictB : Dict := [("depotFile".toList, "//depot/b".toList)]

/-- The C3 scenario: [Record, Message(Info), Record, Message(Failed)]. -/
def events3 : List Event := [.stat dictA, .message mInfo, .stat dictB, .message mFailed]

/-- A client user in track mode with no handler. -/
def cuTrack : P4GoClientUser := { cu0 with track := true }

/-- A track-tagged text whose second segment is empty (the newline arrives
exactly at the expected content offset): the malformed-fragment fallback
fires after one TRACK unit was already appended. -/
def d4 : Str := "--- a\n--- \n".toList

/-! ## Specification translator (p4gospecmgr.cpp)

The form parser and renderer themselves live in the external engine API
(`Spec::ParseNoValid` / `Spec::Format` of p4/spec.h); `StringToSpec`,
`SpecToString` and `StrDictToSpec` delegate to them. They are modelled from
the spec here (section 4.2): a schema is a sequence of field definitions; a
single-value field parses to `Tag -> value`; a repeated field (wlist/llist)
flattens positionally to `Tag0`, `Tag1`, ... in document order, and the
numbering is reproduced identically on render. -/

/-- Modelled from the spec: one field definition of a schema (`FieldDef`),
reduced to what the translator's flattening depends on — the canonical tag
and whether the kind is repeated (wlist/llist). -/
structure SpecElem where
  tag : Str
  isList : Bool
deriving DecidableEq

/-- A document type's schema: its field definitions in order. -/
abbrev SpecDef := List SpecElem

/-- Tags of a schema are pairwise distinct. -/
def tagsNodup : SpecDef → Bool
  | [] => true
  | el :: rest => rest.all (fun el' => decide (el'.tag ≠ el.tag)) && tagsNodup rest

/-- A sane schema: distinct tags, none ending in a decimal digit (so the
flattened keys `Tag` / `Tag0`, `Tag1`, ... of distinct fields cannot
collide). Every schema of the built-in `speclist` table satisfies this. -/
def saneDef (s : SpecDef) : Bool :=
  tagsNodup s && s.all (fun el => noDigitTail el.tag)

/-- Modelled from the spec: one line of a form text — either a field header
`Tag: value` (`value` may be empty) or an indented list entry. -/
inductive FormLine where
  | fld (tag : Str) (val : Str)
  | item (val : Str)
deriving DecidableEq

/-- Modelled from the spec: grouping the form's lines into raw fields, each
the tag with its values in document order. A list entry outside any field
and an empty list entry are malformed (`MalformedDocument`); an inline
empty value contributes no value. `cur` is the field whose entries are
being collected. -/
def groupAux : Option (Str × List Str) → List FormLine → Option (List (Str × List Str))
  | cur, [] =>
    some (match cur with
          | some f => [f]
          | none => [])
  | cur, FormLine.fld t v :: rest =>
    let start : Str × List Str := (t, if v = [] then [] else [v])
    (match cur with
     | some f => (groupAux (some start) rest).map (f :: ·)
     | none => groupAux (some start) rest)
  | cur, FormLine.item w :: rest =>
    if w = [] then none
    else
      match cur with
      | some (t, vs) => groupAux (some (t, vs ++ [w])) rest
      | none => none

/-- Grouping an entire form text into raw fields. -/
def groupLines (ls : List FormLine) : Option (List (Str × List Str)) :=
  groupAux none ls

/-- First field definition with the given tag. -/
def lookupElem : SpecDef → Str → Option SpecElem
  | [], _ => none
  | el :: rest, t => if el.tag = t then some el else lookupElem rest t

/-- Modelled from the spec: a raw field is valid when its tag is in the
schema, a non-repeated field carries exactly one value, and no value is
empty ("fails with ... MalformedDocument on a field that violates its
FieldDef"). -/
def elemOk (s : SpecDef) (p : Str × List Str) : Bool :=
  match lookupElem s p.1 with
  | some el => (el.isList || decide (p.2.length = 1)) && p.2.all (fun v => decide (v ≠ []))
  | none => false

/-- Raw field tags are pairwise distinct. -/
def keysNodup : List (Str × List Str) → Bool
  | [] => true
  | (t, _) :: rest => rest.all (fun q => decide (q.1 ≠ t)) && keysNodup rest

/-- The whole grouped form is valid against the schema. -/
def rawValid (s : SpecDef) (raw : List (Str × List Str)) : Bool :=
  keysNodup raw && raw.all (elemOk s)

/-- Positional flattening of one repeated field's values:
`(Tag ++ i, v_i)` for `i` counting from the given start index. -/
def flattenListElem (t : Str) : Nat → List Str → Dict
  | _, [] => []
  | i, v :: rest => (t ++ natStr i, v) :: flattenListElem t (i + 1) rest

/-- Flattening one field's values against its definition: repeated fields
positionally as `Tag0`, `Tag1`, ...; single fields under their tag. -/
def flattenElem (el : SpecElem) (vs : List Str) : Dict :=
  if el.isList then flattenListElem el.tag 0 vs
  else vs.map (fun v => (el.tag, v))

/-- The values present in a grouped form, selected in schema order. -/
def specVals : SpecDef → List (Str × List Str) → List (SpecElem × List Str)
  | [], _ => []
  | el :: rest, raw =>
    match lookupStr raw el.tag with
    | some vs => (el, vs) :: specVals rest raw
    | none => specVals rest raw

/-- Flattening every selected field into the spec dictionary. -/
def flattenVals : List (SpecElem × List Str) → Dict
  | [] => []
  | (el, vs) :: rest => flattenElem el vs ++ flattenVals rest

/-- Validation and flattening of a grouped form into a SpecDict. -/
def toDict (s : SpecDef) (raw : List (Str × List Str)) : Option Dict :=
  if rawValid s raw then some (flattenVals (specVals s raw)) else none

/-- Modelled from the spec: `Spec::ParseNoValid` — parse a form text against
a schema into the flat, indexed spec dictionary, or fail on a malformed
document. -/
def parseForm (s : SpecDef) (ls : List FormLine) : Option Dict :=
  match groupLines ls with
  | some raw => toDict s raw
  | none => none

/-- Reading the dense run `Tag0`, `Tag1`, ... back out of a dictionary,
fuel-driven (`d.length + 1` always suffices: a dict of length `n` holds at
most `n` such keys). -/
def collectAux (d : Dict) (t : Str) : Nat → Nat → List Str
  | _, 0 => []
  | i, fuel + 1 =>
    match lookupStr d (t ++ natStr i) with
    | some v => v :: collectAux d t (i + 1) fuel
    | none => []

/-- All values of a repeated field present in a dictionary, in index order. -/
def collectIndexed (d : Dict) (t : Str) : List Str :=
  collectAux d t 0 (d.length + 1)

/-- Modelled from the spec: rendering one schema field from a dictionary —
a repeated field emits its header and one list entry per indexed value, in
index order; a single field emits `Tag: value`; an absent field emits
nothing. -/
def renderElem (d : Dict) (el : SpecElem) : List FormLine :=
  if el.isList then
    match collectIndexed d el.tag with
    | [] => []
    | vs => FormLine.fld el.tag [] :: vs.map FormLine.item
  else
    match lookupStr d el.tag with
    | some v => [FormLine.fld el.tag v]
    | none => []

/-- Modelled from the spec: `Spec::Format` — render a dictionary against a
schema into the canonical form text, field by field in schema order. -/
def renderForm : SpecDef → Dict → List FormLine
  | [], _ => []
  | el :: rest, d => renderElem d el ++ renderForm rest d

/-- The schema registry (P4GoSpecMgr): the cached specdef per document
type. -/
structure P4GoSpecMgr where
  specs : List (Str × SpecDef)

/-- `P4GoSpecMgr::HaveSpecDef`. -/
def P4GoSpecMgr.HaveSpecDef (mgr : P4GoSpecMgr) (t : Str) : Bool :=
  (lookupStr mgr.specs t).isSome

/-- `P4GoSpecMgr::StringToSpec`: parse a form against the cached specdef
for the type (the callers guarantee the specdef exists). -/
def P4GoSpecMgr.StringToSpec (mgr : P4GoSpecMgr) (t : Str) (form : List FormLine) :
    Option Dict :=
  match lookupStr mgr.specs t with
  | some sd => parseForm sd form
  | none => none

/-- `P4GoSpecMgr::SpecToString`: render a dictionary against the cached
specdef for the type; fails when there is none. -/
def P4GoSpecMgr.SpecToString (mgr : P4GoSpecMgr) (t : Str) (d : Dict) :
    Option (List FormLine) :=
  match lookupStr mgr.specs t with
  | some sd => some (renderForm sd d)
  | none => none

/-- `P4GoClientApi::ParseSpec`: fails when no specdef is registered for the
type, otherwise `StringToSpec`. -/
def ParseSpec (mgr : P4GoSpecMgr) (t : Str) (form : List FormLine) : Option Dict :=
  if mgr.HaveSpecDef t then mgr.StringToSpec t form else none

/-- `P4GoClientApi::FormatSpec`: fails when no specdef is registered for the
type, otherwise `SpecToString`. -/
def FormatSpec (mgr : P4GoSpecMgr) (t : Str) (d : Dict) : Option (List FormLine) :=
  if mgr.HaveSpecDef t then mgr.SpecToString t d else none

/-- The `extraTag0`, `extraTag1`, ... scan of `StrDictToSpec`: each
`extraTagN` names a target field; when the target has a value in the record,
the pair goes into the spec's side `extras` dictionary; a missing target is
skipped; the scan stops at the first absent `extraTagN`. Fuel-driven
(`dict.length + 1` always suffices). -/
def collectExtrasAux (dict : Dict) : Nat → Nat → Dict
  | _, 0 => []
  | i, fuel + 1 =>
    match lookupStr dict ("extraTag".toList ++ natStr i) with
    | none => []
    | some var =>
      match lookupStr dict var with
      | none => collectExtrasAux dict (i + 1) fuel
      | some val => (var, val) :: collectExtrasAux dict (i + 1) fuel

/-- All extra fields of a server record, keyed by their target names. -/
def collectExtras (dict : Dict) : Dict := collectExtrasAux dict 0 (dict.length + 1)

/-- `P4GoSpecMgr::StrDictToSpec`: format the server record against the
specdef, re-parse the rendered form into the spec's dictionary, and collect
the `extraTagN` fields into the spec's separate `extras` dictionary. -/
def strDictToSpec (sd : SpecDef) (dict : Dict) : Option P4GoSpecData :=
  match parseForm sd (renderForm sd dict) with
  | some d => some { dict := d, extras := collectExtras dict }
  | none => none

/-- `SpecDataGetKeyPair` (p4go.cpp): the key/value iteration of a spec
walks `spec->Dict()` — the parsed dictionary only, not `extras`. -/
def specDataKeyPairs (s : P4GoSpecData) : Dict := s.dict

/-- A small registered schema used by witnesses: a single-value field and a
repeated field. -/
def sdBranch : SpecDef :=
  [ { tag := "Branch".toList, isList := false },
    { tag := "View".toList, isList := true } ]

/-- A registry holding the witness schema under type name "branch". -/
def mgr0 : P4GoSpecMgr := { specs := [("branch".toList, sdBranch)] }

/-- A well-formed witness form text. -/
def form0 : List FormLine :=
  [ FormLine.fld "Branch".toList "b1".toList,
    FormLine.fld "View".toList [],
    FormLine.item "//depot/a/... //b1/a/...".toList,
    FormLine.item "//depot/b/... //b1/b/...".toList ]

/-- A schema with one single-value field, for the extra-tag counterexample. -/
def sdJob : SpecDef := [ { tag := "Job".toList, isList := false } ]

/-- A server record carrying an extra field outside the schema:
`extraTag0` names the target field `Foo`, whose value is `bar`. -/
def dictExtra : Dict :=
  [ ("Job".toList, "job000001".toList),
    ("extraTag0".toList, "Foo".toList),
    ("Foo".toList, "bar".toList) ]

/-- The canonical form lines one field with the given values renders to:
what `renderElem` produces once the lookups are resolved. -/
def canonElem (el : SpecElem) (vs : List Str) : List FormLine :=
  if el.isList then
    match vs with
    | [] => []
    | _ => FormLine.fld el.tag [] :: vs.map FormLine.item
  else vs.map (fun v => FormLine.fld el.tag v)

/-- True when a sequence of form lines does not start with a dangling list
entry (render output always satisfies this). -/
def headIsFld : List FormLine → Bool
  | [] => true
  | FormLine.fld _ _ :: _ => true
  | FormLine.item _ :: _ => false

/-- The grouped form the canonical rendering of the given field values
parses back to: each field with its values, empty-valued fields omitted. -/
def rawCanon (vals : List (SpecElem × List Str)) : List (Str × List Str) :=
  vals.filterMap (fun q => if q.2 = [] then none else some (q.1.tag, q.2))

/-- Validity of selected field values: a non-repeated field has exactly one
value and no value is empty (what `rawValid` guarantees about the selected
values of a parsed form). -/
def valsOk (vals : List (SpecElem × List Str)) : Prop :=
  ∀ q ∈ vals, (q.1.isList = true ∨ q.2.length = 1) ∧ ∀ v ∈ q.2, v ≠ []

/-- The spec dictionary `form0` parses to under `sdBranch`. -/
def d0w : Dict :=
  [ ("Branch".toList, "b1".toList),
    ("View0".toList, "//depot/a/... //b1/a/...".toList),
    ("View1".toList, "//depot/b/... //b1/b/...".toList) ]

/-- The spec `StrDictToSpec` produces from `dictExtra` under `sdJob`: the
extra field is captured in `extras`, keyed by its target name, but the
parsed dictionary holds only the schema field. -/
def spec7 : P4GoSpecData :=
  { dict := [("Job".toList, "job000001".toList)],
    extras := [("Foo".toList, "bar".toList)] }

/-! ## The dispatch contract as data, for stating the dispatcher claims -/

/-- The handler return the dispatcher acts on for one event: the matching
callback's value, except that for a spec unit the source hardcodes 0 (the
`HandleSpec` call is commented out). -/
def handlerRet (h : P4GoHandler) : Event → Nat
  | .text s => h.handleText s
  | .binary s => h.handleBinary s
  | .stat d => h.handleStat d
  | .specEvent _ => 0
  | .message m => h.handleMessage m

/-- The result unit an event turns into when reported. -/
def unitOf : Event → RUnit
  | .text s => .str s
  | .binary s => .bin s
  | .stat d => .dict d
  | .specEvent sd => .spec sd
  | .message m => .msg m

/-- True on a Message event of Empty severity (which `AddOutput(Error*)`
never appends). -/
def isEmptyMsgEvent : Event → Bool
  | .message m => decide (m.severity = .empty)
  | _ => false

/-- The units an event contributes when it is reported: its unit, except
that an Empty-severity message contributes nothing. -/
def defaultUnits (e : Event) : List RUnit :=
  if isEmptyMsgEvent e then [] else [unitOf e]

/-- The units one ordinary (non-track) event appends under the dispatch
contract: with no handler its default units; with one, its default units
exactly when the callback returns 0 (REPORT). -/
def appendedUnits (cu : P4GoClientUser) (e : Event) : List RUnit :=
  match cu.handler with
  | none => defaultUnits e
  | some h => if handlerRet h e = 0 then defaultUnits e else []

/-- The alive flag after one ordinary event: cleared exactly when a
registered handler's callback returns 2 (CANCEL). -/
def aliveAfter (cu : P4GoClientUser) (e : Event) : Bool :=
  match cu.handler with
  | none => cu.alive
  | some h => if handlerRet h e = 2 then false else cu.alive

/-! # Theorems -/

/-! ## Diagnostic code decoders (C10) -/

theorem SubCode_eq (c : Nat) : P4Message.SubCode c = c % 1024 := by
  have h : (0x3ff : Nat) = 2 ^ 10 - 1 := by norm_num
  rw [P4Message.SubCode, Nat.shiftRight_zero, h, Nat.and_pow_two_sub_one_eq_mod]

theorem Subsystem_eq (c : Nat) : P4Message.Subsystem c = c / 1024 % 64 := by
  have h : (0x3f : Nat) = 2 ^ 6 - 1 := by norm_num
  rw [P4Message.Subsystem, Nat.shiftRight_eq_div_pow, h, Nat.and_pow_two_sub_one_eq_mod]

theorem Generic_eq (c : Nat) : P4Message.Generic c = c / 65536 % 256 := by
  have h : (0xff : Nat) = 2 ^ 8 - 1 := by norm_num
  rw [P4Message.Generic, Nat.shiftRight_eq_div_pow, h, Nat.and_pow_two_sub_one_eq_mod]

theorem ArgCount_eq (c : Nat) : P4Message.ArgCount c = c / 16777216 % 16 := by
  have h : (0x0f : Nat) = 2 ^ 4 - 1 := by norm_num
  rw [P4Message.ArgCount, Nat.shiftRight_eq_div_pow, h, Nat.and_pow_two_sub_one_eq_mod]

theorem UniqueCode_eq (c : Nat) : P4Message.UniqueCode c = c % 65536 := by
  have h : (0xffff : Nat) = 2 ^ 16 - 1 := by norm_num
  rw [P4Message.UniqueCode, h, Nat.and_pow_two_sub_one_eq_mod]

/-- C10 counterexample: flipping bit 0 of a code changes both `SubCode` and
`UniqueCode`, so the five listed sub-fields do not occupy pairwise-disjoint
bits — the unique-id mask 0xffff overlaps the sub-code mask 0x3ff (and the
subsystem mask). -/
theorem message_code_fields_overlap :
    P4Message.SubCode 1 ≠ P4Message.SubCode 0 ∧
    P4Message.UniqueCode 1 ≠ P4Message.UniqueCode 0 := by
  decide

/-- C10 (amended): the decoders satisfy the stated shift/mask equations —
sub-code is bits 0–9, subsystem bits 10–15, generic bits 16–23, arg-count
bits 24–27, and those four decode independently and partition bits 0–27 of
the code; but the unique-id is not a disjoint field: it is exactly the
sub-code together with the subsystem (bits 0–15). -/
theorem message_code_decoders (c : Nat) :
    P4Message.SubCode c = c % 1024 ∧
    P4Message.Subsystem c = c / 1024 % 64 ∧
    P4Message.Generic c = c / 65536 % 256 ∧
    P4Message.ArgCount c = c / 16777216 % 16 ∧
    P4Message.UniqueCode c = c % 65536 ∧
    P4Message.UniqueCode c = P4Message.SubCode c + 1024 * P4Message.Subsystem c ∧
    c % 268435456 =
      P4Message.SubCode c + 1024 * P4Message.Subsystem c + 65536 * P4Message.Generic c
        + 16777216 * P4Message.ArgCount c := by
  refine ⟨SubCode_eq c, Subsystem_eq c, Generic_eq c, ArgCount_eq c, UniqueCode_eq c, ?_, ?_⟩
  · rw [UniqueCode_eq, SubCode_eq, Subsystem_eq]; omega
  · rw [SubCode_eq, Subsystem_eq, Generic_eq, ArgCount_eq]; omega

/-! ## Merge case discriminants (C9) -/

/-- C9: each constructor of `P4GoMergeData` sets exactly one discriminant —
content resolve or action resolve, never both — and every accessor asked
for a field of the other discriminant returns the unset value instead of
failing: the action diagnostics are `none` on a content resolve, and the
yours/theirs/base names and all four paths are `none` on an action
resolve. -/
theorem mergecase_discriminants :
    (∀ (v : Dict) (m : ClientMerge),
      (mkContentMergeData v m).GetContentResolveStatus = true ∧
      (mkContentMergeData v m).GetActionResolveStatus = false ∧
      (mkContentMergeData v m).GetMergeAction = none ∧
      (mkContentMergeData v m).GetYoursAction = none ∧
      (mkContentMergeData v m).GetTheirAction = none ∧
      (mkContentMergeData v m).GetType = none) ∧
    (∀ (v : Dict) (m : ClientResolveA),
      (mkActionMergeData v m).GetActionResolveStatus = true ∧
      (mkActionMergeData v m).GetContentResolveStatus = false ∧
      (mkActionMergeData v m).GetYourName = none ∧
      (mkActionMergeData v m).GetTheirName = none ∧
      (mkActionMergeData v m).GetBaseName = none ∧
      (mkActionMergeData v m).GetYourPath = none ∧
      (mkActionMergeData v m).GetTheirPath = none ∧
      (mkActionMergeData v m).GetBasePath = none ∧
      (mkActionMergeData v m).GetResultPath = none) ∧
    (∀ (v : Dict) (m : ClientMerge),
      (mkContentMergeData v m).GetActionResolveStatus
        ≠ (mkContentMergeData v m).GetContentResolveStatus) ∧
    (∀ (v : Dict) (m : ClientResolveA),
      (mkActionMergeData v m).GetActionResolveStatus
        ≠ (mkActionMergeData v m).GetContentResolveStatus) := by
  refine ⟨?_, ?_, ?_, ?_⟩ <;> intro v m <;>
    simp [mkContentMergeData, mkActionMergeData, P4GoMergeData.GetContentResolveStatus,
      P4GoMergeData.GetActionResolveStatus, P4GoMergeData.GetMergeAction,
      P4GoMergeData.GetYoursAction, P4GoMergeData.GetTheirAction, P4GoMergeData.GetType,
      P4GoMergeData.GetYourName, P4GoMergeData.GetTheirName, P4GoMergeData.GetBaseName,
      P4GoMergeData.GetYourPath, P4GoMergeData.GetTheirPath, P4GoMergeData.GetBasePath,
      P4GoMergeData.GetResultPath]

/-! ## Resolve negotiation (C6) -/

/-- C6: with no resolve handler the negotiation is answered by the engine's
own resolve with its precomputed hint and no caller code runs (zero handler
invocations; in particular a hint of AcceptTheirs yields AcceptTheirs); with
a handler it is invoked exactly once with the merge data and its returned
decision is the negotiation's answer. -/
theorem resolve_negotiation :
    (∀ (cu : P4GoClientUser) (m : ClientMerge), cu.resolveHandler = none →
      cu.ResolveContent m = (m.autoHint, 0)) ∧
    (∀ (cu : P4GoClientUser) (m : ClientResolveA), cu.resolveHandler = none →
      cu.ResolveAction m = (m.autoHint, 0)) ∧
    (∀ (cu : P4GoClientUser) (rh : P4GoMergeData → MergeStatus) (m : ClientMerge),
      cu.resolveHandler = some rh →
      cu.ResolveContent m = (rh (mkContentMergeData cu.varList m), 1)) ∧
    (∀ (cu : P4GoClientUser) (rh : P4GoMergeData → MergeStatus) (m : ClientResolveA),
      cu.resolveHandler = some rh →
      cu.ResolveAction m = (rh (mkActionMergeData cu.varList m), 1)) ∧
    (∀ (cu : P4GoClientUser) (m : ClientMerge), cu.resolveHandler = none →
      m.autoHint = MergeStatus.theirs → (cu.ResolveContent m).1 = MergeStatus.theirs) := by
  refine ⟨?_, ?_, ?_, ?_, ?_⟩
  · intro cu m h
    simp [P4GoClientUser.ResolveContent, h, ClientMerge.engineResolve]
  · intro cu m h
    simp [P4GoClientUser.ResolveAction, h, ClientResolveA.engineResolve]
  · intro cu rh m h
    simp [P4GoClientUser.ResolveContent, h]
  · intro cu rh m h
    simp [P4GoClientUser.ResolveAction, h]
  · intro cu m h hm
    simp [P4GoClientUser.ResolveContent, h, ClientMerge.engineResolve, hm]

/-! ## Nested commands (C5) -/

/-- C5: invoking `Run` while another command is outstanding (`depth != 0`)
fails fast — it sets the E_WARN "nested Perforce commands" error and
returns null without starting the command and without mutating any session
state (in particular the outstanding command's result collection is
untouched: the whole `P4GoClientApi` value is returned unchanged). -/
theorem run_nested_fails_fast (api : P4GoClientApi) (events : List Event) (e : ErrState)
    (h : api.depth ≠ 0) :
    P4GoClientApi.Run api events e = (api, e ++ [(Severity.warn, nestedCmdMsg)], none) := by
  simp [P4GoClientApi.Run, h]

/-- C5 witness: a session at depth 1 rejects a command and is returned
unchanged. -/
theorem run_nested_fails_fast_witness :
    P4GoClientApi.Run api1 [] [] = (api1, [(Severity.warn, nestedCmdMsg)], none) := by
  have h := run_nested_fails_fast api1 [] [] (by decide)
  simpa using h

/-! ## Output dispatcher lemmas (towards C2, C3, C8) -/

theorem applyRet_results (cu : P4GoClientUser) (ret : Nat) :
    (applyRet cu ret).results = cu.results := by
  unfold applyRet; split <;> rfl

theorem applyRet_handler (cu : P4GoClientUser) (ret : Nat) :
    (applyRet cu ret).handler = cu.handler := by
  unfold applyRet; split <;> rfl

theorem applyRet_track (cu : P4GoClientUser) (ret : Nat) :
    (applyRet cu ret).track = cu.track := by
  unfold applyRet; split <;> rfl

theorem addMsg_items (r : P4GoResults) (m : Msg) :
    (r.addMsg m).items = r.items ++ (if m.severity = .empty then [] else [RUnit.msg m]) := by
  unfold P4GoResults.addMsg
  by_cases hs : m.severity = .empty
  · simp [hs]
  · simp only [hs, if_neg, ite_false]
    cases m.severity <;> simp at hs ⊢

theorem processOutputStr_items (cu : P4GoClientUser) (s : Str) (b : Bool) :
    (processOutputStr cu s b).results.items
      = cu.results.items ++ appendedUnits cu (if b then .binary s else .text s) := by
  cases b with
  | false =>
    unfold processOutputStr appendedUnits
    cases hcu : cu.handler with
    | none => simp [P4GoResults.addStr, defaultUnits, isEmptyMsgEvent, unitOf]
    | some h =>
      by_cases h0 : h.handleText s = 0 <;>
        simp [h0, handlerRet, applyRet_results, P4GoResults.addStr, defaultUnits,
          isEmptyMsgEvent, unitOf]
  | true =>
    unfold processOutputStr appendedUnits
    cases hcu : cu.handler with
    | none => simp [P4GoResults.addStr, defaultUnits, isEmptyMsgEvent, unitOf]
    | some h =>
      by_cases h0 : h.handleBinary s = 0 <;>
        simp [h0, handlerRet, applyRet_results, P4GoResults.addStr, defaultUnits,
          isEmptyMsgEvent, unitOf]

theorem processOutputStr_handler (cu : P4GoClientUser) (s : Str) (b : Bool) :
    (processOutputStr cu s b).handler = cu.handler := by
  unfold processOutputStr
  cases hcu : cu.handler with
  | none => simp [hcu]
  | some h => simp only [hcu]; split <;> (try split) <;> simp [applyRet_handler, hcu]

theorem processOutputStr_track (cu : P4GoClientUser) (s : Str) (b : Bool) :
    (processOutputStr cu s b).track = cu.track := by
  unfold processOutputStr
  cases hcu : cu.handler with
  | none => simp [hcu]
  | some h => simp only [hcu]; split <;> (try split) <;> simp [applyRet_track, hcu]

theorem processOutputDict_items (cu : P4GoClientUser) (d : Dict) :
    (processOutputDict cu d).results.items = cu.results.items ++ appendedUnits cu (.stat d) := by
  unfold processOutputDict appendedUnits
  cases hcu : cu.handler with
  | none => simp [P4GoResults.addDict, defaultUnits, isEmptyMsgEvent, unitOf]
  | some h =>
    simp only [handlerRet, defaultUnits, isEmptyMsgEvent, unitOf]
    split <;> simp [applyRet_results, P4GoResults.addDict]

theorem processOutputSpec_items (cu : P4GoClientUser) (sd : P4GoSpecData) :
    (processOutputSpec cu sd).results.items
      = cu.results.items ++ appendedUnits cu (.specEvent sd) := by
  unfold processOutputSpec appendedUnits
  cases hcu : cu.handler with
  | none => simp [P4GoResults.addSpec, defaultUnits, isEmptyMsgEvent, unitOf]
  | some h => simp [handlerRet, defaultUnits, isEmptyMsgEvent, unitOf, applyRet_results,
      P4GoResults.addSpec]

theorem processMessage_items (cu : P4GoClientUser) (m : Msg) :
    (processMessage cu m).results.items = cu.results.items ++ appendedUnits cu (.message m) := by
  unfold processMessage appendedUnits
  cases hcu : cu.handler with
  | none => simp [addMsg_items, defaultUnits, isEmptyMsgEvent, unitOf]
  | some h =>
    simp only [handlerRet, defaultUnits, isEmptyMsgEvent, unitOf]
    split <;> simp [applyRet_results, addMsg_items]

/-- Per-event form of the dispatch contract on the collection, for ordinary
(non-track) events. -/
theorem processEvent_items (cu : P4GoClientUser) (e : Event) (ht : cu.track = false) :
    (processEvent cu e).results.items = cu.results.items ++ appendedUnits cu e := by
  cases e with
  | text s =>
    have : OutputText cu s = processOutputStr cu s false := by
      unfold OutputText; simp [ht]
    simpa [processEvent, this] using processOutputStr_items cu s false
  | binary s => simpa [processEvent, OutputBinary] using processOutputStr_items cu s true
  | stat d => exact processOutputDict_items cu d
  | specEvent sd => exact processOutputSpec_items cu sd
  | message m => exact processMessage_items cu m

/-- Per-event form of the dispatch contract on the alive flag, for ordinary
(non-track) events. -/
theorem processEvent_alive (cu : P4GoClientUser) (e : Event) (ht : cu.track = false) :
    (processEvent cu e).alive = aliveAfter cu e := by
  have hstr : ∀ s b, (processOutputStr cu s b).alive
      = aliveAfter cu (if b then .binary s else .text s) := by
    intro s b
    cases b with
    | false =>
      unfold processOutputStr aliveAfter
      cases hcu : cu.handler with
      | none => simp [P4GoResults.addStr]
      | some h =>
        by_cases h2 : h.handleText s = 2
        · simp [h2, handlerRet, applyRet]
        · by_cases h0 : h.handleText s = 0 <;>
            simp [h0, h2, handlerRet, applyRet, P4GoResults.addStr]
    | true =>
      unfold processOutputStr aliveAfter
      cases hcu : cu.handler with
      | none => simp [P4GoResults.addStr]
      | some h =>
        by_cases h2 : h.handleBinary s = 2
        · simp [h2, handlerRet, applyRet]
        · by_cases h0 : h.handleBinary s = 0 <;>
            simp [h0, h2, handlerRet, applyRet, P4GoResults.addStr]
  cases e with
  | text s =>
    have hot : OutputText cu s = processOutputStr cu s false := by
      unfold OutputText; simp [ht]
    simpa [processEvent, hot] using hstr s false
  | binary s => simpa [processEvent, OutputBinary] using hstr s true
  | stat d =>
    unfold processEvent processOutputDict aliveAfter
    cases hcu : cu.handler with
    | none => simp [P4GoResults.addDict]
    | some h =>
      by_cases h2 : h.handleStat d = 2
      · simp [h2, handlerRet, applyRet]
      · by_cases h0 : h.handleStat d = 0 <;>
          simp [h0, h2, handlerRet, applyRet, P4GoResults.addDict]
  | specEvent sd =>
    unfold processEvent processOutputSpec aliveAfter
    cases hcu : cu.handler with
    | none => simp [P4GoResults.addSpec]
    | some h => simp [handlerRet, applyRet, P4GoResults.addSpec]
  | message m =>
    unfold processEvent processMessage aliveAfter
    cases hcu : cu.handler with
    | none => simp
    | some h =>
      by_cases h2 : h.handleMessage m = 2
      · simp [h2, handlerRet, applyRet]
      · by_cases h0 : h.handleMessage m = 0 <;> simp [h0, h2, handlerRet, applyRet]

theorem trackAux_handler (d : Str) :
    ∀ (fuel : Nat) (cu : P4GoClientUser) (p i : Nat),
      (trackAux d cu p i fuel).handler = cu.handler := by
  intro fuel
  induction fuel with
  | zero => intro cu p i; rfl
  | succ n ih =>
    intro cu p i
    unfold trackAux
    split
    · split
      · split
        · simpa using ih { cu with results := cu.results.addTrack (strSub d p (i - p)) }
            (i + 5) (i + 1)
        · simp [processOutputStr_handler]
      · exact ih cu p (i + 1)
    · rfl

theorem processEvent_handler (cu : P4GoClientUser) (e : Event) :
    (processEvent cu e).handler = cu.handler := by
  cases e with
  | text s =>
    show (OutputText cu s).handler = cu.handler
    unfold OutputText
    split
    · exact trackAux_handler s s.length cu 4 4
    · exact processOutputStr_handler cu s false
  | binary s =>
    show (processOutputStr cu s true).handler = cu.handler
    exact processOutputStr_handler cu s true
  | stat d =>
    show (processOutputDict cu d).handler = cu.handler
    unfold processOutputDict
    cases hcu : cu.handler with
    | none => simp [hcu]
    | some h => simp only [hcu]; split <;> simp [applyRet_handler, hcu]
  | specEvent sd =>
    show (processOutputSpec cu sd).handler = cu.handler
    unfold processOutputSpec
    cases hcu : cu.handler with
    | none => simp [hcu]
    | some h => simp [hcu, applyRet_handler]
  | message m =>
    show (processMessage cu m).handler = cu.handler
    unfold processMessage
    cases hcu : cu.handler with
    | none => simp [hcu]
    | some h => simp only [hcu]; split <;> simp [applyRet_handler, hcu]

theorem processEvent_track (cu : P4GoClientUser) (e : Event) (ht : cu.track = false) :
    (processEvent cu e).track = false := by
  cases e with
  | text s =>
    have hot : OutputText cu s = processOutputStr cu s false := by
      unfold OutputText; simp [ht]
    rw [processEvent, hot, processOutputStr_track]; exact ht
  | binary s => rw [processEvent, OutputBinary, processOutputStr_track]; exact ht
  | stat d =>
    unfold processEvent processOutputDict
    cases hcu : cu.handler with
    | none => simpa using ht
    | some h => simp only [hcu]; split <;> simp [applyRet_track, ht]
  | specEvent sd =>
    unfold processEvent processOutputSpec
    cases hcu : cu.handler with
    | none => simpa using ht
    | some h => simp [hcu, applyRet_track, ht]
  | message m =>
    unfold processEvent processMessage
    cases hcu : cu.handler with
    | none => simpa using ht
    | some h => simp only [hcu]; split <;> simp [applyRet_track, ht]

theorem runEvents_default_items (events : List Event) :
    ∀ cu : P4GoClientUser, cu.handler = none → cu.track = false →
      (runEvents cu events).results.items = cu.results.items ++ events.flatMap defaultUnits := by
  induction events with
  | nil => intro cu _ _; simp [runEvents]
  | cons e es ih =>
    intro cu hh ht
    have hstep : runEvents cu (e :: es) = runEvents (processEvent cu e) es := rfl
    rw [hstep, ih (processEvent cu e) (by rw [processEvent_handler cu e, hh])
      (processEvent_track cu e ht)]
    rw [processEvent_items cu e ht]
    simp [appendedUnits, hh, List.append_assoc]

theorem deleteTrack_countP_dict (r : P4GoResults) :
    (r.deleteTrack).items.countP isDictUnit = r.items.countP isDictUnit := by
  unfold P4GoResults.deleteTrack
  have hsplit : r.items.reverse.takeWhile isTrackUnit
      ++ r.items.reverse.dropWhile isTrackUnit = r.items.reverse := by
    simp
  have h0 : (r.items.reverse.takeWhile isTrackUnit).countP isDictUnit = 0 := by
    rw [List.countP_eq_zero]
    intro a ha
    have := List.mem_takeWhile_imp ha
    cases a <;> simp_all [isTrackUnit, isDictUnit]
  calc ((r.items.reverse.dropWhile isTrackUnit).reverse).countP isDictUnit
      = (r.items.reverse.dropWhile isTrackUnit).countP isDictUnit := by
        rw [List.countP_reverse]
    _ = r.items.reverse.countP isDictUnit := by
        conv_rhs => rw [← hsplit]
        rw [List.countP_append, h0, Nat.zero_add]
    _ = r.items.countP isDictUnit := by
        rw [List.countP_reverse]

theorem appendedUnits_countP_dict (cu : P4GoClientUser) (e : Event)
    (he : isDictUnit (unitOf e) = false) :
    (appendedUnits cu e).countP isDictUnit = 0 := by
  unfold appendedUnits defaultUnits
  rcases hcu : cu.handler with _ | h <;>
    (try split) <;> (try split) <;>
    simp [List.countP_cons, he]

theorem processOutputStr_countP_dict (cu : P4GoClientUser) (s : Str) (b : Bool) :
    (processOutputStr cu s b).results.items.countP isDictUnit
      = cu.results.items.countP isDictUnit := by
  rw [processOutputStr_items, List.countP_append, appendedUnits_countP_dict]
  · omega
  · cases b <;> simp [unitOf, isDictUnit]

theorem trackAux_countP_dict (d : Str) :
    ∀ (fuel : Nat) (cu : P4GoClientUser) (p i : Nat),
      (trackAux d cu p i fuel).results.items.countP isDictUnit
        = cu.results.items.countP isDictUnit := by
  intro fuel
  induction fuel with
  | zero => intro cu p i; rfl
  | succ n ih =>
    intro cu p i
    unfold trackAux
    split
    · split
      · split
        · rw [ih]
          simp [P4GoResults.addTrack, List.countP_append, isDictUnit]
        · rw [deleteTrack_countP_dict]
          exact processOutputStr_countP_dict cu d false
      · exact ih cu p (i + 1)
    · rfl

theorem processEvent_countP_dict (cu : P4GoClientUser) (e : Event) (h : P4GoHandler)
    (hcu : cu.handler = some h) (hstat : ∀ dd, h.handleStat dd = 1) :
    (processEvent cu e).results.items.countP isDictUnit
      = cu.results.items.countP isDictUnit := by
  cases e with
  | text s =>
    show (OutputText cu s).results.items.countP isDictUnit = _
    unfold OutputText
    split
    · exact trackAux_countP_dict s s.length cu 4 4
    · exact processOutputStr_countP_dict cu s false
  | binary s =>
    show (processOutputStr cu s true).results.items.countP isDictUnit = _
    exact processOutputStr_countP_dict cu s true
  | stat dd =>
    show (processOutputDict cu dd).results.items.countP isDictUnit = _
    unfold processOutputDict
    rw [hcu]
    simp [hstat dd, applyRet_results, applyRet]
  | specEvent sd =>
    show (processOutputSpec cu sd).results.items.countP isDictUnit = _
    unfold processOutputSpec
    rw [hcu]
    simp [applyRet, P4GoResults.addSpec, List.countP_append, isDictUnit]
  | message m =>
    show (processMessage cu m).results.items.countP isDictUnit = _
    rw [processMessage_items, List.countP_append, appendedUnits_countP_dict]
    · omega
    · simp [unitOf, isDictUnit]

theorem runEvents_countP_dict (events : List Event) (h : P4GoHandler)
    (hstat : ∀ dd, h.handleStat dd = 1) :
    ∀ cu : P4GoClientUser, cu.handler = some h →
      (runEvents cu events).results.items.countP isDictUnit
        = cu.results.items.countP isDictUnit := by
  induction events with
  | nil => intro cu _; rfl
  | cons e es ih =>
    intro cu hcu
    have hstep : runEvents cu (e :: es) = runEvents (processEvent cu e) es := rfl
    have hpres : (processEvent cu e).handler = some h := by
      rw [processEvent_handler cu e, hcu]
    rw [hstep, ih (processEvent cu e) hpres, processEvent_countP_dict cu e h hcu hstat]

/-! ## The dispatch contract (C2) -/

/-- C2 counterexample: a Message event of Empty severity is offered but
never appended — with no handler registered (where the claim says every
unit is appended), and equally under a handler that returns REPORT (0). -/
theorem empty_message_never_appended :
    (processEvent cu0 (Event.message mEmpty)).results.items = [] ∧
    (processEvent cuReport (Event.message mEmpty)).results.items = [] :=
  ⟨rfl, rfl⟩

/-- C2 (amended): for ordinary (non-track) events, a registered handler's
text/binary/stat/message callback governs each unit's fate — 0 (REPORT)
appends the unit and leaves `alive` untouched, any other return does not
append, and 2 (CANCEL) additionally clears `alive`; with no handler every
unit is appended — in both cases with the one exception that a Message of
Empty severity is never appended (`AddOutput(Error*)` drops it even under
REPORT). A spec unit is always appended since its callback is disabled in
the source. Consequently a handler whose stat callback always returns 1
(HANDLED) leaves the number of Record units unchanged over any event
sequence: with an empty starting collection, zero Record units remain no
matter how many records the engine emitted. -/
theorem output_dispatch_contract :
    (∀ (cu : P4GoClientUser) (e : Event), cu.track = false →
      (processEvent cu e).results.items = cu.results.items ++ appendedUnits cu e ∧
      (processEvent cu e).alive = aliveAfter cu e) ∧
    (∀ (cu : P4GoClientUser) (e : Event), cu.track = false → cu.handler = none →
      (processEvent cu e).results.items
        = cu.results.items ++ (if isEmptyMsgEvent e then [] else [unitOf e]) ∧
      (processEvent cu e).alive = cu.alive) ∧
    (∀ (h : P4GoHandler) (events : List Event) (cu : P4GoClientUser),
      cu.handler = some h → (∀ dd, h.handleStat dd = 1) →
      (runEvents cu events).results.items.countP isDictUnit
        = cu.results.items.countP isDictUnit) := by
  refine ⟨?_, ?_, ?_⟩
  · intro cu e ht
    exact ⟨processEvent_items cu e ht, processEvent_alive cu e ht⟩
  · intro cu e ht hh
    refine ⟨?_, ?_⟩
    · rw [processEvent_items cu e ht]
      simp [appendedUnits, hh, defaultUnits]
    · rw [processEvent_alive cu e ht]
      simp [aliveAfter, hh]
  · intro h events cu hcu hstat
    exact runEvents_countP_dict events h hstat cu hcu

/-! ## Failed/Fatal messages and the Run error (C3) -/

/-- C3 counterexample: for the event sequence [Record, Message(Info),
Record, Message(Failed)] the collection holds exactly those four units in
that order — but `Run` returns a nil error: the Failed message does not
surface as an error from the command invocation itself. -/
theorem failed_message_yields_no_run_error :
    (goRun api0 events3).2.1
      = [RUnit.dict dictA, RUnit.msg mInfo, RUnit.dict dictB, RUnit.msg mFailed] ∧
    (goRun api0 events3).2.2 = none :=
  ⟨rfl, rfl⟩

/-- C3 (amended): with no handler registered every message — Failed/Fatal
included — is appended to the result collection in its arrival position
(so [Record, Message(Info), Record, Message(Failed)] is stored as exactly
those four units in order); but the `Error` out-parameter of
`P4GoClientApi::Run`, the only source of `P4.Run`'s returned Go error, is
extended only for session-level failures (nested command, not connected):
over any event sequence on a connected, non-nested session it is returned
unchanged, so `P4.Run` returns a nil error no matter what Failed/Fatal
diagnostics the command produced. Callers detect command failure by
inspecting the collection (as the wrappers `RunFetch`/`RunSave`/... do). -/
theorem failed_messages_in_position_but_nil_error :
    (∀ (cu : P4GoClientUser) (events : List Event),
      cu.handler = none → cu.track = false →
      (runEvents cu events).results.items
        = cu.results.items ++ events.flatMap defaultUnits) ∧
    (∀ (m : Msg), m.severity = Severity.failed → defaultUnits (.message m) = [RUnit.msg m]) ∧
    (∀ (m : Msg), m.severity = Severity.fatal → defaultUnits (.message m) = [RUnit.msg m]) ∧
    (∀ (api : P4GoClientApi) (events : List Event) (e : ErrState),
      api.depth = 0 → api.connected = true →
      (P4GoClientApi.Run api events e).2.1 = e) ∧
    (∀ (api : P4GoClientApi) (events : List Event),
      api.depth = 0 → api.connected = true → (goRun api events).2.2 = none) := by
  refine ⟨?_, ?_, ?_, ?_, ?_⟩
  · intro cu events hh ht
    exact runEvents_default_items events cu hh ht
  · intro m hm
    simp [defaultUnits, isEmptyMsgEvent, unitOf, hm]
  · intro m hm
    simp [defaultUnits, isEmptyMsgEvent, unitOf, hm]
  · intro api events e h0 hc
    unfold P4GoClientApi.Run
    simp only [h0, hc]
    simp
  · intro api events h0 hc
    unfold goRun
    have he : (P4GoClientApi.Run api events []).2.1 = [] := by
      unfold P4GoClientApi.Run
      simp only [h0, hc]
      simp
    simp [he, goRunError]

/-! ## Track-line fallback (C4) -/

/-- C4 (the code's divergence, evaluated): on the track-tagged text
`"--- a\n--- \n"` — whose second segment is empty, triggering the
malformed-fragment fallback — the dispatcher first appended `Track "a"`,
then the fallback appends the entire text as one ordinary Text unit and
only then calls `DeleteTrack`, which walks from the tail and stops
immediately at that just-appended Text unit: the Track unit from this very
event survives, although the fallback's comment says it is rolling the
damage back. -/
theorem track_fallback_rollback_is_noop :
    (OutputText cuTrack d4).results.items = [RUnit.track "a".toList, RUnit.str d4] :=
  rfl

/-! ## Fresh command-scoped state (C8) -/

/-- C8: every command begins with fresh command-scoped state — `Reset`
empties the collection (all units destroyed, every per-kind count zero) and
forces `alive = true` whatever it was before (a CANCEL included); on a
connected, non-nested session `Run` processes the events from exactly that
reset state; and setting an output, progress or SSO handler also forces
`alive` back to true. -/
theorem run_begins_with_fresh_state :
    (∀ cu : P4GoClientUser,
      (cu.reset).results.items = [] ∧
      (cu.reset).results.infoCount = 0 ∧ (cu.reset).results.warnCount = 0 ∧
      (cu.reset).results.errorCount = 0 ∧ (cu.reset).results.trackCount = 0 ∧
      (cu.reset).results.dictCount = 0 ∧ (cu.reset).results.specCount = 0 ∧
      (cu.reset).results.stringCount = 0 ∧ (cu.reset).alive = true) ∧
    (∀ (api : P4GoClientApi) (events : List Event) (e : ErrState),
      api.depth = 0 → api.connected = true → api.dropped = false →
      P4GoClientApi.Run api events e
        = ({ api with ui := runEvents api.ui.reset events, cmdRun := true }, e,
            some (runEvents api.ui.reset events).results)) ∧
    (∀ (cu : P4GoClientUser) (h : Option P4GoHandler), (cu.setHandler h).alive = true) ∧
    (∀ (cu : P4GoClientUser) (p : Bool), (cu.setProgress p).alive = true) ∧
    (∀ (cu : P4GoClientUser) (b : Bool), (cu.setSSOHandler b).alive = true) := by
  refine ⟨?_, ?_, ?_, ?_, ?_⟩
  · intro cu
    refine ⟨rfl, rfl, rfl, rfl, rfl, rfl, rfl, rfl, rfl⟩
  · intro api events e h0 hc hd
    unfold P4GoClientApi.Run
    simp only [h0, hc, hd]
    simp
  · intro cu h; rfl
  · intro cu p; rfl
  · intro cu b; rfl

/-! ## Decimal index rendering -/

theorem natStrF_stable : ∀ (f1 n f2 : Nat), n < f1 → n < f2 → natStrF f1 n = natStrF f2 n := by
  intro f1
  induction f1 with
  | zero => intro n f2 h1 _; omega
  | succ f ih =>
    intro n f2 h1 h2
    cases f2 with
    | zero => omega
    | succ g =>
      unfold natStrF
      by_cases hn : n < 10
      · simp [hn]
      · simp only [hn, if_false]
        have hd : n / 10 < n := Nat.div_lt_self (by omega) (by omega)
        rw [ih (n / 10) g (by omega) (by omega)]

theorem natStr_unfold (n : Nat) :
    natStr n = if n < 10 then [Nat.digitChar n]
               else natStr (n / 10) ++ [Nat.digitChar (n % 10)] := by
  unfold natStr
  by_cases hn : n < 10
  · unfold natStrF; simp [hn]
  · have hd : n / 10 < n := Nat.div_lt_self (by omega) (by omega)
    conv_lhs => rw [natStrF]
    simp only [hn, if_false]
    rw [natStrF_stable n (n / 10) (n / 10 + 1) (by omega) (by omega)]

theorem digitChar_isDigit : ∀ n, n < 10 → (Nat.digitChar n).isDigit = true := by decide

theorem digitChar_inj : ∀ a, a < 10 → ∀ b, b < 10 → Nat.digitChar a = Nat.digitChar b → a = b := by
  decide

theorem natStr_ne_nil (n : Nat) : natStr n ≠ [] := by
  rw [natStr_unfold]
  by_cases h : n < 10 <;> simp [h]

theorem natStr_digits : ∀ (n : Nat), ∀ c ∈ natStr n, c.isDigit = true := by
  intro n
  induction n using Nat.strongRecOn with
  | ind n ih =>
    intro c hc
    rw [natStr_unfold] at hc
    by_cases h : n < 10
    · simp only [h, if_true, List.mem_singleton] at hc
      subst hc
      exact digitChar_isDigit n h
    · simp only [h, if_false, List.mem_append, List.mem_singleton] at hc
      rcases hc with hc | hc
      · exact ih (n / 10) (Nat.div_lt_self (by omega) (by omega)) c hc
      · subst hc
        exact digitChar_isDigit (n % 10) (Nat.mod_lt _ (by omega))

theorem natStr_inj : ∀ (a b : Nat), natStr a = natStr b → a = b := by
  intro a
  induction a using Nat.strongRecOn with
  | ind a ih =>
    intro b h
    rw [natStr_unfold a, natStr_unfold b] at h
    by_cases ha : a < 10 <;> by_cases hb : b < 10 <;>
      simp only [ha, hb, if_true, if_false] at h
    · exact digitChar_inj a ha b hb (by simpa using h)
    · exfalso
      cases hA : natStr (b / 10) with
      | nil => exact natStr_ne_nil (b / 10) hA
      | cons z zs => rw [hA] at h; simp at h
    · exfalso
      cases hA : natStr (a / 10) with
      | nil => exact natStr_ne_nil (a / 10) hA
      | cons z zs => rw [hA] at h; simp at h
    · have hp := List.append_inj' h (by simp)
      have e1 : a / 10 = b / 10 :=
        ih (a / 10) (Nat.div_lt_self (by omega) (by omega)) (b / 10) hp.1
      have e2 : a % 10 = b % 10 :=
        digitChar_inj _ (Nat.mod_lt _ (by omega)) _ (Nat.mod_lt _ (by omega))
          (by simpa using hp.2)
      omega

/-! ## Digit-suffixed keys of distinct tags are distinct -/

theorem noDigitTail_of_cons {x : Char} {a : Str} (h : noDigitTail (x :: a) = true) :
    noDigitTail a = true := by
  cases a with
  | nil => rfl
  | cons y a' =>
    unfold noDigitTail at h ⊢
    rwa [List.getLast?_cons_cons] at h

theorem digits_tail_nil (b : Str) (hb : noDigitTail b = true)
    (hall : ∀ c ∈ b, c.isDigit = true) : b = [] := by
  cases hbe : b with
  | nil => rfl
  | cons y b' =>
    exfalso
    subst hbe
    have hne : (y :: b') ≠ ([] : Str) := by simp
    have hmem := List.getLast_mem hne
    have hdig := hall _ hmem
    unfold noDigitTail at hb
    rw [List.getLast?_eq_getLast _ hne] at hb
    simp [hdig] at hb

theorem append_digits_inj :
    ∀ (a b ds es : Str), noDigitTail a = true → noDigitTail b = true →
      (∀ c ∈ ds, c.isDigit = true) → (∀ c ∈ es, c.isDigit = true) →
      a ++ ds = b ++ es → a = b ∧ ds = es := by
  intro a
  induction a with
  | nil =>
    intro b ds es _ hb hds _ h
    have hds' : ds = b ++ es := by simpa using h
    have hbnil : b = [] := by
      refine digits_tail_nil b hb ?_
      intro c hc
      exact hds c (by rw [hds']; exact List.mem_append_left es hc)
    subst hbnil
    exact ⟨rfl, by simpa using hds'⟩
  | cons x a' ih =>
    intro b ds es ha hb hds hes h
    cases b with
    | nil =>
      exfalso
      have hes' : es = (x :: a') ++ ds := by simpa using h.symm
      have hanil : (x :: a') = ([] : Str) := by
        refine digits_tail_nil (x :: a') ha ?_
        intro c hc
        refine hes c ?_
        rw [hes']
        exact List.mem_append_left ds hc
      simp at hanil
    | cons y b' =>
      simp only [List.cons_append, List.cons.injEq] at h
      obtain ⟨hxy, h'⟩ := h
      obtain ⟨h1, h2⟩ := ih b' ds es (noDigitTail_of_cons ha) (noDigitTail_of_cons hb) hds hes h'
      exact ⟨by rw [hxy, h1], h2⟩

/-! ## Dictionary lookups over flattened field values -/

theorem lookupStr_append {α : Type} (d1 d2 : List (Str × α)) (t : Str) :
    lookupStr (d1 ++ d2) t
      = match lookupStr d1 t with
        | some v => some v
        | none => lookupStr d2 t := by
  induction d1 with
  | nil => simp [lookupStr]
  | cons p d1' ih =>
    obtain ⟨k, v⟩ := p
    by_cases hk : k = t <;> simp [lookupStr, hk, ih]

theorem lookupStr_eq_none {α : Type} (d : List (Str × α)) (t : Str) :
    lookupStr d t = none ↔ ∀ p ∈ d, p.1 ≠ t := by
  induction d with
  | nil => simp [lookupStr]
  | cons p d' ih =>
    obtain ⟨k, v⟩ := p
    by_cases hk : k = t
    · subst hk
      have hx : lookupStr ((k, v) :: d') k = some v := by simp [lookupStr]
      rw [hx]
      constructor
      · intro h; exact absurd h (by simp)
      · intro h; exact absurd rfl (h (k, v) (List.mem_cons_self _ _))
    · have hx : lookupStr ((k, v) :: d') t = lookupStr d' t := by simp [lookupStr, hk]
      rw [hx, ih]
      constructor
      · intro h q hq
        rcases List.mem_cons.mp hq with rfl | hq
        · exact hk
        · exact h q hq
      · intro h q hq
        exact h q (List.mem_cons_of_mem _ hq)

theorem lookupStr_mem {α : Type} {d : List (Str × α)} {t : Str} {v : α}
    (h : lookupStr d t = some v) : (t, v) ∈ d := by
  induction d with
  | nil => simp [lookupStr] at h
  | cons p d' ih =>
    obtain ⟨k, w⟩ := p
    by_cases hk : k = t
    · subst hk
      have hx : lookupStr ((k, w) :: d') k = some w := by simp [lookupStr]
      rw [hx] at h
      injection h with h
      subst h
      exact List.mem_cons_self _ _
    · have hx : lookupStr ((k, w) :: d') t = lookupStr d' t := by simp [lookupStr, hk]
      rw [hx] at h
      exact List.mem_cons_of_mem _ (ih h)

theorem flattenListElem_mem (t : Str) :
    ∀ (vs : List Str) (i0 : Nat) (p : Str × Str), p ∈ flattenListElem t i0 vs →
      ∃ m, p.1 = t ++ natStr m := by
  intro vs
  induction vs with
  | nil => intro i0 p hp; simp [flattenListElem] at hp
  | cons v vs' ih =>
    intro i0 p hp
    rw [flattenListElem] at hp
    rcases List.mem_cons.mp hp with hp | hp
    · exact ⟨i0, by rw [hp]⟩
    · exact ih (i0 + 1) p hp

theorem flattenElem_keys (el : SpecElem) (vs : List Str) (p : Str × Str)
    (hp : p ∈ flattenElem el vs) :
    ∃ ds, (∀ c ∈ ds, c.isDigit = true) ∧ p.1 = el.tag ++ ds := by
  unfold flattenElem at hp
  split at hp
  · obtain ⟨m, hm⟩ := flattenListElem_mem el.tag vs 0 p hp
    exact ⟨natStr m, natStr_digits m, hm⟩
  · obtain ⟨v, _, hpv⟩ := List.mem_map.mp hp
    exact ⟨[], by simp, by rw [← hpv]; simp⟩

theorem lookup_flattenElem_ne (el : SpecElem) (vs : List Str) (t es : Str)
    (hne : el.tag ≠ t) (hel : noDigitTail el.tag = true) (ht : noDigitTail t = true)
    (hes : ∀ c ∈ es, c.isDigit = true) :
    lookupStr (flattenElem el vs) (t ++ es) = none := by
  rw [lookupStr_eq_none]
  intro p hp
  obtain ⟨ds, hds, hkey⟩ := flattenElem_keys el vs p hp
  rw [hkey]
  intro hcontra
  exact hne (append_digits_inj el.tag t ds es hel ht hds hes hcontra).1

theorem lookup_flattenElem_single (el : SpecElem) (v : Str) (hl : el.isList = false) :
    lookupStr (flattenElem el [v]) el.tag = some v := by
  simp [flattenElem, hl, lookupStr]

theorem lookup_flattenListElem (t : Str) :
    ∀ (vs : List Str) (i0 j : Nat),
      lookupStr (flattenListElem t i0 vs) (t ++ natStr (i0 + j)) = vs[j]? := by
  intro vs
  induction vs with
  | nil => intro i0 j; simp [flattenListElem, lookupStr]
  | cons v vs' ih =>
    intro i0 j
    cases j with
    | zero =>
      rw [flattenListElem]
      simp [lookupStr]
    | succ j' =>
      have hne : t ++ natStr i0 ≠ t ++ natStr (i0 + (j' + 1)) := by
        intro hcontra
        have := natStr_inj i0 (i0 + (j' + 1)) (List.append_cancel_left hcontra)
        omega
      rw [flattenListElem]
      simp only [lookupStr, if_neg hne]
      have hih := ih (i0 + 1) j'
      rw [show i0 + 1 + j' = i0 + (j' + 1) by omega] at hih
      rw [hih]
      simp

theorem lookup_flattenVals_miss :
    ∀ (vals : List (SpecElem × List Str)) (t es : Str), noDigitTail t = true →
      (∀ c ∈ es, c.isDigit = true) →
      (∀ q ∈ vals, noDigitTail q.1.tag = true) →
      (∀ q ∈ vals, q.1.tag ≠ t) →
      lookupStr (flattenVals vals) (t ++ es) = none := by
  intro vals
  induction vals with
  | nil => intro t es _ _ _ _; simp [flattenVals, lookupStr]
  | cons q vals' ih =>
    intro t es ht hes hdig hnot
    obtain ⟨el, vs⟩ := q
    show lookupStr (flattenElem el vs ++ flattenVals vals') (t ++ es) = none
    rw [lookupStr_append,
      lookup_flattenElem_ne el vs t es (hnot (el, vs) (List.mem_cons_self _ _))
        (hdig (el, vs) (List.mem_cons_self _ _)) ht hes]
    exact ih t es ht hes (fun q hq => hdig q (List.mem_cons_of_mem _ hq))
      (fun q hq => hnot q (List.mem_cons_of_mem _ hq))

theorem lookup_flattenVals_single :
    ∀ (vals : List (SpecElem × List Str)) (el : SpecElem) (v : Str),
      (vals.map (fun q => q.1.tag)).Nodup →
      (∀ q ∈ vals, noDigitTail q.1.tag = true) →
      (el, [v]) ∈ vals → el.isList = false →
      lookupStr (flattenVals vals) el.tag = some v := by
  intro vals
  induction vals with
  | nil => intro el v _ _ hmem _; simp at hmem
  | cons q vals' ih =>
    intro el v hdist hdig hmem hl
    obtain ⟨el', vs'⟩ := q
    show lookupStr (flattenElem el' vs' ++ flattenVals vals') el.tag = some v
    rw [lookupStr_append]
    rcases List.mem_cons.mp hmem with heq | hmem'
    · injection heq with he hv
      subst he; subst hv
      rw [lookup_flattenElem_single el v hl]
    · have htag : el.tag ∈ vals'.map (fun q => q.1.tag) :=
        List.mem_map.mpr ⟨(el, [v]), hmem', rfl⟩
      have hne : el'.tag ≠ el.tag := by
        intro hcontra
        rw [List.map_cons, List.nodup_cons] at hdist
        exact hdist.1 (hcontra ▸ htag)
      have hmiss : lookupStr (flattenElem el' vs') el.tag = none := by
        rw [← List.append_nil el.tag]
        exact lookup_flattenElem_ne el' vs' el.tag [] hne
          (hdig (el', vs') (List.mem_cons_self _ _))
          (hdig (el, [v]) (List.mem_cons_of_mem _ hmem')) (by simp)
      rw [hmiss]
      rw [List.map_cons, List.nodup_cons] at hdist
      exact ih el v hdist.2 (fun q hq => hdig q (List.mem_cons_of_mem _ hq)) hmem' hl

theorem lookup_flattenVals_list :
    ∀ (vals : List (SpecElem × List Str)) (el : SpecElem) (vs : List Str),
      (vals.map (fun q => q.1.tag)).Nodup →
      (∀ q ∈ vals, noDigitTail q.1.tag = true) →
      (el, vs) ∈ vals → el.isList = true →
      ∀ j, lookupStr (flattenVals vals) (el.tag ++ natStr j) = vs[j]? := by
  intro vals
  induction vals with
  | nil => intro el vs _ _ hmem _; simp at hmem
  | cons q vals' ih =>
    intro el vs hdist hdig hmem hl j
    obtain ⟨el', vs'⟩ := q
    show lookupStr (flattenElem el' vs' ++ flattenVals vals') (el.tag ++ natStr j) = vs[j]?
    rw [lookupStr_append]
    rcases List.mem_cons.mp hmem with heq | hmem'
    · injection heq with he hv
      subst he; subst hv
      have hfirst : lookupStr (flattenElem el vs) (el.tag ++ natStr j) = vs[j]? := by
        unfold flattenElem
        rw [if_pos hl]
        have := lookup_flattenListElem el.tag vs 0 j
        rwa [Nat.zero_add] at this
      rw [hfirst]
      cases hj : vs[j]? with
      | some v => rfl
      | none =>
        rw [List.map_cons, List.nodup_cons] at hdist
        refine lookup_flattenVals_miss vals' el.tag (natStr j)
          (hdig (el, vs) (List.mem_cons_self _ _)) (natStr_digits j)
          (fun q hq => hdig q (List.mem_cons_of_mem _ hq)) ?_
        intro q hq hcontra
        exact hdist.1 (hcontra ▸ List.mem_map.mpr ⟨q, hq, rfl⟩)
    · have htag : el.tag ∈ vals'.map (fun q => q.1.tag) :=
        List.mem_map.mpr ⟨(el, vs), hmem', rfl⟩
      have hne : el'.tag ≠ el.tag := by
        intro hcontra
        rw [List.map_cons, List.nodup_cons] at hdist
        exact hdist.1 (hcontra ▸ htag)
      rw [lookup_flattenElem_ne el' vs' el.tag (natStr j) hne
        (hdig (el', vs') (List.mem_cons_self _ _))
        (hdig (el, vs) (List.mem_cons_of_mem _ hmem')) (natStr_digits j)]
      rw [List.map_cons, List.nodup_cons] at hdist
      exact ih el vs hdist.2 (fun q hq => hdig q (List.mem_cons_of_mem _ hq)) hmem' hl j

theorem collectAux_eq_drop (d : Dict) (t : Str) (vs : List Str)
    (hlook : ∀ j, lookupStr d (t ++ natStr j) = vs[j]?) :
    ∀ (fuel i : Nat), vs.length < fuel + i → collectAux d t i fuel = vs.drop i := by
  intro fuel
  induction fuel with
  | zero =>
    intro i h
    rw [collectAux]
    exact (List.drop_eq_nil_of_le (by omega)).symm
  | succ f ih =>
    intro i h
    show (match lookupStr d (t ++ natStr i) with
          | some v => v :: collectAux d t (i + 1) f
          | none => []) = vs.drop i
    rw [hlook i]
    by_cases hi : i < vs.length
    · rw [List.getElem?_eq_getElem hi]
      show vs[i] :: collectAux d t (i + 1) f = vs.drop i
      rw [ih (i + 1) (by omega)]
      exact (List.drop_eq_getElem_cons hi).symm
    · rw [List.getElem?_eq_none (by omega)]
      exact (List.drop_eq_nil_of_le (by omega)).symm

theorem flattenListElem_length (t : Str) :
    ∀ (vs : List Str) (i0 : Nat), (flattenListElem t i0 vs).length = vs.length := by
  intro vs
  induction vs with
  | nil => intro i0; rfl
  | cons v vs' ih => intro i0; simp [flattenListElem, ih]

theorem flattenVals_length_ge :
    ∀ (vals : List (SpecElem × List Str)) (el : SpecElem) (vs : List Str),
      (el, vs) ∈ vals → el.isList = true → vs.length ≤ (flattenVals vals).length := by
  intro vals
  induction vals with
  | nil => intro el vs hmem _; simp at hmem
  | cons q vals' ih =>
    intro el vs hmem hl
    obtain ⟨el', vs'⟩ := q
    have hlen : (flattenVals ((el', vs') :: vals')).length
        = (flattenElem el' vs').length + (flattenVals vals').length := by
      show (flattenElem el' vs' ++ flattenVals vals').length = _
      simp
    rcases List.mem_cons.mp hmem with heq | hmem'
    · injection heq with he hv
      subst he; subst hv
      rw [hlen]
      unfold flattenElem
      rw [if_pos hl, flattenListElem_length]
      omega
    · have := ih el vs hmem' hl
      rw [hlen]
      omega

theorem collectIndexed_flattenVals (vals : List (SpecElem × List Str)) (el : SpecElem)
    (vs : List Str) (hdist : (vals.map (fun q => q.1.tag)).Nodup)
    (hdig : ∀ q ∈ vals, noDigitTail q.1.tag = true)
    (hmem : (el, vs) ∈ vals) (hl : el.isList = true) :
    collectIndexed (flattenVals vals) el.tag = vs := by
  unfold collectIndexed
  have hlook := lookup_flattenVals_list vals el vs hdist hdig hmem hl
  have hbound : vs.length < (flattenVals vals).length + 1 + 0 := by
    have := flattenVals_length_ge vals el vs hmem hl
    omega
  have := collectAux_eq_drop (flattenVals vals) el.tag vs hlook
    ((flattenVals vals).length + 1) 0 hbound
  simpa using this

theorem lookup_flattenVals_t_miss (vals : List (SpecElem × List Str)) (t : Str)
    (ht : noDigitTail t = true)
    (hdig : ∀ q ∈ vals, noDigitTail q.1.tag = true)
    (hnot : ∀ q ∈ vals, q.1.tag ≠ t) :
    lookupStr (flattenVals vals) t = none := by
  rw [← List.append_nil t]
  exact lookup_flattenVals_miss vals t [] ht (by simp) hdig hnot

theorem collectIndexed_flattenVals_miss (vals : List (SpecElem × List Str)) (t : Str)
    (ht : noDigitTail t = true)
    (hdig : ∀ q ∈ vals, noDigitTail q.1.tag = true)
    (hnot : ∀ q ∈ vals, q.1.tag ≠ t) :
    collectIndexed (flattenVals vals) t = [] := by
  unfold collectIndexed
  show (match lookupStr (flattenVals vals) (t ++ natStr 0) with
        | some v => v :: collectAux (flattenVals vals) t (0 + 1) (flattenVals vals).length
        | none => []) = []
  rw [lookup_flattenVals_miss vals t (natStr 0) ht (natStr_digits 0) hdig hnot]

/-! ## Schema sanity carried to the selected values -/

theorem tagsNodup_iff : ∀ s : SpecDef, tagsNodup s = true ↔ (s.map (fun el => el.tag)).Nodup := by
  intro s
  induction s with
  | nil => simp [tagsNodup]
  | cons el rest ih =>
    simp only [tagsNodup, List.map_cons, List.nodup_cons, Bool.and_eq_true,
      List.all_eq_true, decide_eq_true_eq]
    constructor
    · rintro ⟨h1, h2⟩
      refine ⟨?_, ih.mp h2⟩
      intro hcontra
      obtain ⟨el', hel', htag⟩ := List.mem_map.mp hcontra
      exact h1 el' hel' htag
    · rintro ⟨h1, h2⟩
      exact ⟨fun el' hel' hcontra => h1 (List.mem_map.mpr ⟨el', hel', hcontra⟩), ih.mpr h2⟩

theorem saneDef_tagsNodup {s : SpecDef} (hs : saneDef s = true) : tagsNodup s = true := by
  unfold saneDef at hs
  simp only [Bool.and_eq_true] at hs
  exact hs.1

theorem saneDef_noDigitTail {s : SpecDef} (hs : saneDef s = true) :
    ∀ el ∈ s, noDigitTail el.tag = true := by
  unfold saneDef at hs
  simp only [Bool.and_eq_true, List.all_eq_true] at hs
  exact hs.2

theorem specVals_mem :
    ∀ (s : SpecDef) (raw : List (Str × List Str)) (el : SpecElem) (vs : List Str),
      (el, vs) ∈ specVals s raw → el ∈ s ∧ lookupStr raw el.tag = some vs := by
  intro s
  induction s with
  | nil => intro raw el vs hmem; simp [specVals] at hmem
  | cons el' rest ih =>
    intro raw el vs hmem
    unfold specVals at hmem
    cases hlook : lookupStr raw el'.tag with
    | some vs' =>
      rw [hlook] at hmem
      rcases List.mem_cons.mp hmem with heq | hmem'
      · injection heq with he hv
        subst he; subst hv
        exact ⟨List.mem_cons_self _ _, hlook⟩
      · obtain ⟨h1, h2⟩ := ih raw el vs hmem'
        exact ⟨List.mem_cons_of_mem _ h1, h2⟩
    | none =>
      rw [hlook] at hmem
      obtain ⟨h1, h2⟩ := ih raw el vs hmem
      exact ⟨List.mem_cons_of_mem _ h1, h2⟩

theorem specVals_mem_of :
    ∀ (s : SpecDef) (raw : List (Str × List Str)) (el : SpecElem) (vs : List Str),
      el ∈ s → lookupStr raw el.tag = some vs → (el, vs) ∈ specVals s raw := by
  intro s
  induction s with
  | nil => intro raw el vs hel _; simp at hel
  | cons el' rest ih =>
    intro raw el vs hel hlook
    unfold specVals
    rcases List.mem_cons.mp hel with heq | hel'
    · subst heq
      rw [hlook]
      exact List.mem_cons_self _ _
    · cases hlook' : lookupStr raw el'.tag with
      | some vs' => exact List.mem_cons_of_mem _ (ih raw el vs hel' hlook)
      | none => exact ih raw el vs hel' hlook

theorem specVals_tags_sublist :
    ∀ (s : SpecDef) (raw : List (Str × List Str)),
      ((specVals s raw).map (fun q => q.1.tag)).Sublist (s.map (fun el => el.tag)) := by
  intro s
  induction s with
  | nil => intro raw; simp [specVals]
  | cons el rest ih =>
    intro raw
    unfold specVals
    cases hlook : lookupStr raw el.tag with
    | some vs =>
      rw [List.map_cons, List.map_cons]
      exact (ih raw).cons₂ el.tag
    | none =>
      rw [List.map_cons]
      exact (ih raw).cons el.tag

theorem specVals_tags_nodup (s : SpecDef) (raw : List (Str × List Str))
    (hs : tagsNodup s = true) : ((specVals s raw).map (fun q => q.1.tag)).Nodup :=
  ((tagsNodup_iff s).mp hs).sublist (specVals_tags_sublist s raw)

theorem specVals_tags_noDigitTail (s : SpecDef) (raw : List (Str × List Str))
    (hs : saneDef s = true) :
    ∀ q ∈ specVals s raw, noDigitTail q.1.tag = true := by
  intro q hq
  obtain ⟨el, vs⟩ := q
  exact saneDef_noDigitTail hs el (specVals_mem s raw el vs hq).1

theorem lookupElem_of_mem :
    ∀ (s : SpecDef) (el : SpecElem), el ∈ s → tagsNodup s = true →
      lookupElem s el.tag = some el := by
  intro s
  induction s with
  | nil => intro el hel _; simp at hel
  | cons el' rest ih =>
    intro el hel hs
    simp only [tagsNodup, Bool.and_eq_true, List.all_eq_true, decide_eq_true_eq] at hs
    rcases List.mem_cons.mp hel with heq | hel'
    · subst heq
      simp [lookupElem]
    · have hne : el'.tag ≠ el.tag := by
        intro hcontra
        exact hs.1 el hel' (hcontra.symm)
      unfold lookupElem
      rw [if_neg hne]
      exact ih el hel' hs.2

theorem rawValid_parts {s : SpecDef} {raw : List (Str × List Str)}
    (hv : rawValid s raw = true) :
    keysNodup raw = true ∧ ∀ q ∈ raw, elemOk s q = true := by
  unfold rawValid at hv
  simp only [Bool.and_eq_true, List.all_eq_true] at hv
  exact hv

theorem specVals_valsOk (s : SpecDef) (raw : List (Str × List Str))
    (hs : tagsNodup s = true) (hv : rawValid s raw = true) :
    valsOk (specVals s raw) := by
  intro q hq
  obtain ⟨el, vs⟩ := q
  obtain ⟨hmem, hlook⟩ := specVals_mem s raw el vs hq
  have hraw : (el.tag, vs) ∈ raw := lookupStr_mem hlook
  have hok := (rawValid_parts hv).2 _ hraw
  unfold elemOk at hok
  rw [lookupElem_of_mem s el hmem hs] at hok
  simp only [Bool.and_eq_true, Bool.or_eq_true, List.all_eq_true, decide_eq_true_eq] at hok
  exact ⟨hok.1, fun v hv' => hok.2 v hv'⟩

/-! ## Rendering a flattened dictionary reproduces the canonical form -/

theorem canonElem_nil (el : SpecElem) : canonElem el [] = [] := by
  unfold canonElem
  by_cases h : el.isList = true <;> simp [h]

theorem flattenElem_nil (el : SpecElem) : flattenElem el [] = [] := by
  unfold flattenElem
  by_cases h : el.isList = true <;> simp [h, flattenListElem]

theorem renderElem_eq_canonElem (s : SpecDef) (raw : List (Str × List Str))
    (hs : saneDef s = true) (hv : rawValid s raw = true) (el : SpecElem) (hel : el ∈ s) :
    renderElem (flattenVals (specVals s raw)) el
      = canonElem el ((lookupStr raw el.tag).getD []) := by
  have hdist := specVals_tags_nodup s raw (saneDef_tagsNodup hs)
  have hdig := specVals_tags_noDigitTail s raw hs
  have heltag : noDigitTail el.tag = true := saneDef_noDigitTail hs el hel
  cases hlook : lookupStr raw el.tag with
  | none =>
    have hnot : ∀ q ∈ specVals s raw, q.1.tag ≠ el.tag := by
      intro q hq hcontra
      obtain ⟨_, hlk⟩ := specVals_mem s raw q.1 q.2 hq
      rw [hcontra, hlook] at hlk
      exact Option.noConfusion hlk
    simp only [Option.getD_none, canonElem_nil]
    unfold renderElem
    by_cases hl : el.isList = true
    · rw [if_pos hl, collectIndexed_flattenVals_miss (specVals s raw) el.tag heltag hdig hnot]
    · rw [if_neg hl, lookup_flattenVals_t_miss (specVals s raw) el.tag heltag hdig hnot]
  | some vs =>
    have hmem : (el, vs) ∈ specVals s raw := specVals_mem_of s raw el vs hel hlook
    simp only [Option.getD_some]
    by_cases hl : el.isList = true
    · unfold renderElem canonElem
      rw [if_pos hl, if_pos hl,
        collectIndexed_flattenVals (specVals s raw) el vs hdist hdig hmem hl]
      cases vs with
      | nil => rfl
      | cons w ws => rfl
    · have hl' : el.isList = false := by simpa using hl
      have hok := specVals_valsOk s raw (saneDef_tagsNodup hs) hv (el, vs) hmem
      have hv1 : vs.length = 1 := by
        rcases hok.1 with h | h
        · exact absurd h hl
        · exact h
      obtain ⟨v, rfl⟩ : ∃ v, vs = [v] := by
        cases vs with
        | nil => simp at hv1
        | cons v vs' =>
          cases vs' with
          | nil => exact ⟨v, rfl⟩
          | cons _ _ => simp at hv1
      have hone : lookupStr (flattenVals (specVals s raw)) el.tag = some v :=
        lookup_flattenVals_single (specVals s raw) el v hdist hdig hmem hl'
      unfold renderElem canonElem
      rw [if_neg hl, if_neg hl, hone]
      rfl

theorem renderForm_via :
    ∀ (s : SpecDef) (D : Dict) (raw : List (Str × List Str)),
      (∀ el ∈ s, renderElem D el = canonElem el ((lookupStr raw el.tag).getD [])) →
      renderForm s D = (specVals s raw).flatMap (fun q => canonElem q.1 q.2) := by
  intro s
  induction s with
  | nil => intro D raw _; simp [renderForm, specVals]
  | cons el rest ih =>
    intro D raw h
    show renderElem D el ++ renderForm rest D = _
    rw [h el (List.mem_cons_self _ _),
      ih D raw (fun el' h' => h el' (List.mem_cons_of_mem _ h'))]
    rw [show specVals (el :: rest) raw
        = (match lookupStr raw el.tag with
           | some vs => (el, vs) :: specVals rest raw
           | none => specVals rest raw) from rfl]
    cases hlook : lookupStr raw el.tag with
    | some vs => simp
    | none => simp [canonElem_nil]

/-! ## Grouping the canonical rendering back into raw fields -/

theorem groupAux_shift (ls : List FormLine) (f : Str × List Str)
    (h : headIsFld ls = true) :
    groupAux (some f) ls = (groupAux none ls).map (f :: ·) := by
  cases ls with
  | nil => rfl
  | cons l ls' =>
    cases l with
    | fld t v => rfl
    | item w => simp [headIsFld] at h

theorem groupAux_items :
    ∀ (items : List Str) (t : Str) (acc : List Str) (rest : List FormLine),
      (∀ w ∈ items, w ≠ []) →
      groupAux (some (t, acc)) (items.map FormLine.item ++ rest)
        = groupAux (some (t, acc ++ items)) rest := by
  intro items
  induction items with
  | nil => intro t acc rest _; simp
  | cons w ws ih =>
    intro t acc rest hne
    have hw : w ≠ [] := hne w (List.mem_cons_self _ _)
    have h1 : groupAux (some (t, acc)) (FormLine.item w :: (ws.map FormLine.item ++ rest))
        = groupAux (some (t, acc ++ [w])) (ws.map FormLine.item ++ rest) := by
      simp [groupAux, hw]
    rw [List.map_cons, List.cons_append, h1,
      ih t (acc ++ [w]) rest (fun w' hw' => hne w' (List.mem_cons_of_mem _ hw'))]
    simp [List.append_assoc]

theorem flatMap_canon_headIsFld :
    ∀ vals : List (SpecElem × List Str),
      headIsFld (vals.flatMap (fun q => canonElem q.1 q.2)) = true := by
  intro vals
  induction vals with
  | nil => rfl
  | cons q vals' ih =>
    obtain ⟨el, vs⟩ := q
    rw [List.flatMap_cons]
    unfold canonElem
    by_cases hl : el.isList = true
    · rw [if_pos hl]
      cases vs with
      | nil => simpa using ih
      | cons w ws => rfl
    · rw [if_neg hl]
      cases vs with
      | nil => simpa using ih
      | cons w ws => rfl

theorem groupAux_canon :
    ∀ vals : List (SpecElem × List Str), valsOk vals →
      groupAux none (vals.flatMap (fun q => canonElem q.1 q.2)) = some (rawCanon vals) := by
  intro vals
  induction vals with
  | nil => intro _; rfl
  | cons q vals' ih =>
    intro hok
    obtain ⟨el, vs⟩ := q
    have hok' : valsOk vals' := fun p hp => hok p (List.mem_cons_of_mem _ hp)
    have hrest := ih hok'
    have hhead := flatMap_canon_headIsFld vals'
    obtain ⟨hlen, hne⟩ := hok (el, vs) (List.mem_cons_self _ _)
    rw [List.flatMap_cons]
    show groupAux none (canonElem el vs ++ vals'.flatMap (fun q => canonElem q.1 q.2))
      = some (rawCanon ((el, vs) :: vals'))
    by_cases hl : el.isList = true
    · cases vs with
      | nil =>
        rw [canonElem_nil, List.nil_append, hrest]
        unfold rawCanon
        simp
      | cons w ws =>
        have hc : canonElem el (w :: ws)
            = FormLine.fld el.tag [] :: (w :: ws).map FormLine.item := by
          unfold canonElem
          rw [if_pos hl]
        rw [hc]
        have h1 : groupAux none
            ((FormLine.fld el.tag [] :: (w :: ws).map FormLine.item)
              ++ vals'.flatMap (fun q => canonElem q.1 q.2))
            = groupAux (some (el.tag, ([] : List Str)))
                ((w :: ws).map FormLine.item
                  ++ vals'.flatMap (fun q => canonElem q.1 q.2)) := by
          rfl
        rw [h1, groupAux_items (w :: ws) el.tag [] _ hne,
          groupAux_shift _ _ hhead, hrest]
        unfold rawCanon
        simp
    · have hl' : el.isList = false := by simpa using hl
      have hv1 : vs.length = 1 := by
        rcases hlen with h | h
        · exact absurd h hl
        · exact h
      obtain ⟨v, rfl⟩ : ∃ v, vs = [v] := by
        cases vs with
        | nil => simp at hv1
        | cons v vs' =>
          cases vs' with
          | nil => exact ⟨v, rfl⟩
          | cons _ _ => simp at hv1
      have hvne : v ≠ [] := hne v (List.mem_cons_self _ _)
      have hc : canonElem el [v] = [FormLine.fld el.tag v] := by
        unfold canonElem
        rw [if_neg hl]
        rfl
      rw [hc]
      have h1 : groupAux none
          (FormLine.fld el.tag v :: vals'.flatMap (fun q => canonElem q.1 q.2))
          = groupAux (some (el.tag, [v]))
              (vals'.flatMap (fun q => canonElem q.1 q.2)) := by
        simp [groupAux, hvne]
      rw [List.singleton_append, h1, groupAux_shift _ _ hhead, hrest]
      unfold rawCanon
      simp

/-! ## The grouped canonical form is valid and selects the same values -/

theorem rawCanon_mem {vals : List (SpecElem × List Str)} {q : Str × List Str} :
    q ∈ rawCanon vals → ∃ p ∈ vals, p.2 ≠ [] ∧ q = (p.1.tag, p.2) := by
  intro hq
  unfold rawCanon at hq
  obtain ⟨p, hp, hfp⟩ := List.mem_filterMap.mp hq
  by_cases hn : p.2 = []
  · rw [if_pos hn] at hfp
    exact Option.noConfusion hfp
  · rw [if_neg hn] at hfp
    injection hfp with h
    exact ⟨p, hp, hn, h.symm⟩

theorem rawCanon_keys {vals : List (SpecElem × List Str)} {q : Str × List Str}
    (hq : q ∈ rawCanon vals) : q.1 ∈ vals.map (fun p => p.1.tag) := by
  obtain ⟨p, hp, _, rfl⟩ := rawCanon_mem hq
  exact List.mem_map.mpr ⟨p, hp, rfl⟩

theorem rawCanon_keysNodup :
    ∀ vals : List (SpecElem × List Str), (vals.map (fun q => q.1.tag)).Nodup →
      keysNodup (rawCanon vals) = true := by
  intro vals
  induction vals with
  | nil => intro _; rfl
  | cons q vals' ih =>
    intro hdist
    rw [List.map_cons, List.nodup_cons] at hdist
    obtain ⟨el, vs⟩ := q
    by_cases hn : vs = []
    · have hskip : rawCanon ((el, vs) :: vals') = rawCanon vals' := by
        unfold rawCanon
        rw [List.filterMap_cons]
        simp [hn]
      rw [hskip]
      exact ih hdist.2
    · have hkeep : rawCanon ((el, vs) :: vals') = (el.tag, vs) :: rawCanon vals' := by
        unfold rawCanon
        rw [List.filterMap_cons]
        simp [hn]
      rw [hkeep]
      show ((rawCanon vals').all (fun q => decide (q.1 ≠ el.tag))
        && keysNodup (rawCanon vals')) = true
      simp only [Bool.and_eq_true, List.all_eq_true, decide_eq_true_eq]
      refine ⟨?_, ih hdist.2⟩
      intro p hp hcontra
      have hmem := rawCanon_keys hp
      rw [hcontra] at hmem
      exact hdist.1 hmem

theorem elemOk_eq (s : SpecDef) (t : Str) (vs : List Str) (el : SpecElem)
    (h : lookupElem s t = some el) :
    elemOk s (t, vs)
      = ((el.isList || decide (vs.length = 1)) && vs.all (fun v => decide (v ≠ []))) := by
  unfold elemOk
  simp only [h]

theorem rawCanon_valid (s : SpecDef) (raw : List (Str × List Str))
    (hs : tagsNodup s = true) (hv : rawValid s raw = true) :
    rawValid s (rawCanon (specVals s raw)) = true := by
  have hdist := specVals_tags_nodup s raw hs
  have hok := specVals_valsOk s raw hs hv
  unfold rawValid
  simp only [Bool.and_eq_true, List.all_eq_true]
  refine ⟨rawCanon_keysNodup _ hdist, ?_⟩
  intro q hq
  obtain ⟨p, hp, hpne, rfl⟩ := rawCanon_mem hq
  obtain ⟨el, vs⟩ := p
  obtain ⟨hmem, _⟩ := specVals_mem s raw el vs hp
  obtain ⟨h1, h2⟩ := hok (el, vs) hp
  rw [elemOk_eq s el.tag vs el (lookupElem_of_mem s el hmem hs)]
  simp only [Bool.and_eq_true, Bool.or_eq_true, List.all_eq_true, decide_eq_true_eq]
  exact ⟨h1, fun v hv' => h2 v hv'⟩

theorem specVals_congr :
    ∀ (s : SpecDef) (raw1 raw2 : List (Str × List Str)),
      (∀ el ∈ s, lookupStr raw1 el.tag = lookupStr raw2 el.tag) →
      specVals s raw1 = specVals s raw2 := by
  intro s
  induction s with
  | nil => intro raw1 raw2 _; rfl
  | cons el rest ih =>
    intro raw1 raw2 h
    unfold specVals
    rw [h el (List.mem_cons_self _ _),
      ih raw1 raw2 (fun el' h' => h el' (List.mem_cons_of_mem _ h'))]

theorem tagsNodup_cons {el : SpecElem} {rest : SpecDef}
    (hs : tagsNodup (el :: rest) = true) :
    (∀ el' ∈ rest, el'.tag ≠ el.tag) ∧ tagsNodup rest = true := by
  simp only [tagsNodup, Bool.and_eq_true, List.all_eq_true, decide_eq_true_eq] at hs
  exact hs

theorem specVals_rawCanon :
    ∀ (s : SpecDef) (raw : List (Str × List Str)), tagsNodup s = true →
      specVals s (rawCanon (specVals s raw))
        = (specVals s raw).filter (fun q => decide (q.2 ≠ [])) := by
  intro s
  induction s with
  | nil => intro raw _; rfl
  | cons el rest ih =>
    intro raw hs
    obtain ⟨hne, hs'⟩ := tagsNodup_cons hs
    show specVals (el :: rest) (rawCanon (specVals (el :: rest) raw)) = _
    rw [show specVals (el :: rest) raw
        = (match lookupStr raw el.tag with
           | some vs => (el, vs) :: specVals rest raw
           | none => specVals rest raw) from rfl]
    cases hlook : lookupStr raw el.tag with
    | some vs =>
      have htagmiss : ∀ q ∈ rawCanon (specVals rest raw), q.1 ≠ el.tag := by
        intro q hq hcontra
        have hmem := rawCanon_keys hq
        rw [hcontra] at hmem
        obtain ⟨p, hp, hptag⟩ := List.mem_map.mp hmem
        obtain ⟨hpel, _⟩ := specVals_mem rest raw p.1 p.2 hp
        exact hne p.1 hpel hptag
      by_cases hn : vs = []
      · have hskip : rawCanon ((el, vs) :: specVals rest raw)
            = rawCanon (specVals rest raw) := by
          unfold rawCanon
          rw [List.filterMap_cons]
          simp [hn]
        rw [hskip]
        have hmiss : lookupStr (rawCanon (specVals rest raw)) el.tag = none :=
          (lookupStr_eq_none _ _).mpr htagmiss
        show (match lookupStr (rawCanon (specVals rest raw)) el.tag with
              | some vs' => (el, vs') :: specVals rest (rawCanon (specVals rest raw))
              | none => specVals rest (rawCanon (specVals rest raw))) = _
        rw [hmiss, ih raw hs']
        simp [List.filter_cons, hn]
      · have hkeep : rawCanon ((el, vs) :: specVals rest raw)
            = (el.tag, vs) :: rawCanon (specVals rest raw) := by
          unfold rawCanon
          rw [List.filterMap_cons]
          simp [hn]
        rw [hkeep]
        have hhit : lookupStr ((el.tag, vs) :: rawCanon (specVals rest raw)) el.tag
            = some vs := by
          simp [lookupStr]
        show (match lookupStr ((el.tag, vs) :: rawCanon (specVals rest raw)) el.tag with
              | some vs' => (el, vs')
                  :: specVals rest ((el.tag, vs) :: rawCanon (specVals rest raw))
              | none => specVals rest ((el.tag, vs) :: rawCanon (specVals rest raw)))
            = _
        rw [hhit]
        have hcongr : specVals rest ((el.tag, vs) :: rawCanon (specVals rest raw))
            = specVals rest (rawCanon (specVals rest raw)) := by
          refine specVals_congr rest _ _ ?_
          intro el' hel'
          show (if el.tag = el'.tag then some vs
                else lookupStr (rawCanon (specVals rest raw)) el'.tag) = _
          rw [if_neg (fun hcontra => hne el' hel' hcontra.symm)]
        rw [hcongr, ih raw hs']
        simp [List.filter_cons, hn]
    | none =>
      have htagmiss : ∀ q ∈ rawCanon (specVals rest raw), q.1 ≠ el.tag := by
        intro q hq hcontra
        have hmem := rawCanon_keys hq
        rw [hcontra] at hmem
        obtain ⟨p, hp, hptag⟩ := List.mem_map.mp hmem
        obtain ⟨hpel, _⟩ := specVals_mem rest raw p.1 p.2 hp
        exact hne p.1 hpel hptag
      have hmiss : lookupStr (rawCanon (specVals rest raw)) el.tag = none :=
        (lookupStr_eq_none _ _).mpr htagmiss
      show (match lookupStr (rawCanon (specVals rest raw)) el.tag with
            | some vs' => (el, vs') :: specVals rest (rawCanon (specVals rest raw))
            | none => specVals rest (rawCanon (specVals rest raw))) = _
      rw [hmiss, ih raw hs']

theorem flattenVals_filter :
    ∀ vals : List (SpecElem × List Str),
      flattenVals (vals.filter (fun q => decide (q.2 ≠ []))) = flattenVals vals := by
  intro vals
  induction vals with
  | nil => rfl
  | cons q vals' ih =>
    obtain ⟨el, vs⟩ := q
    by_cases hn : vs = []
    · subst hn
      rw [List.filter_cons, if_neg (by simp)]
      rw [ih]
      show flattenVals vals' = flattenElem el [] ++ flattenVals vals'
      rw [flattenElem_nil, List.nil_append]
    · rw [List.filter_cons, if_pos (by simp [hn])]
      show flattenVals ((el, vs) :: List.filter _ vals')
        = flattenVals ((el, vs) :: vals')
      show flattenElem el vs ++ flattenVals (List.filter _ vals')
        = flattenElem el vs ++ flattenVals vals'
      rw [ih]

/-! ## The round trip: parse, render, re-parse -/

theorem parse_render_parse (s : SpecDef) (raw : List (Str × List Str))
    (hs : saneDef s = true) (hv : rawValid s raw = true) :
    parseForm s (renderForm s (flattenVals (specVals s raw)))
      = some (flattenVals (specVals s raw)) := by
  have hsn : tagsNodup s = true := saneDef_tagsNodup hs
  have hok : valsOk (specVals s raw) := specVals_valsOk s raw hsn hv
  have hrender : renderForm s (flattenVals (specVals s raw))
      = (specVals s raw).flatMap (fun q => canonElem q.1 q.2) :=
    renderForm_via s (flattenVals (specVals s raw)) raw
      (fun el hel => renderElem_eq_canonElem s raw hs hv el hel)
  rw [hrender]
  unfold parseForm groupLines
  rw [groupAux_canon (specVals s raw) hok]
  show toDict s (rawCanon (specVals s raw)) = some (flattenVals (specVals s raw))
  unfold toDict
  rw [if_pos (rawCanon_valid s raw hsn hv)]
  rw [specVals_rawCanon s raw hsn, flattenVals_filter]

theorem parseForm_inv {sd : SpecDef} {x : List FormLine} {d : Dict}
    (hp : parseForm sd x = some d) :
    ∃ raw, rawValid sd raw = true ∧ d = flattenVals (specVals sd raw) := by
  unfold parseForm at hp
  cases hg : groupLines x with
  | none => rw [hg] at hp; exact Option.noConfusion hp
  | some raw =>
    rw [hg] at hp
    have hp2 : (if rawValid sd raw = true then some (flattenVals (specVals sd raw))
        else none) = some d := hp
    by_cases hvv : rawValid sd raw = true
    · rw [if_pos hvv] at hp2
      exact ⟨raw, hvv, (Option.some.inj hp2).symm⟩
    · rw [if_neg hvv] at hp2
      exact Option.noConfusion hp2

/-- C1: for a document type with a registered sane schema, one parse/render
pass is a normalization — when a form text parses successfully, rendering the
resulting spec dictionary succeeds (it is the canonical form of that
dictionary), and parsing the rendered text again returns exactly the same
dictionary. -/
theorem parse_format_roundtrip (mgr : P4GoSpecMgr) (t : Str) (sd : SpecDef)
    (x : List FormLine) (d : Dict)
    (hsd : lookupStr mgr.specs t = some sd) (hsane : saneDef sd = true)
    (hp : ParseSpec mgr t x = some d) :
    FormatSpec mgr t d = some (renderForm sd d)
      ∧ ParseSpec mgr t (renderForm sd d) = some d := by
  have hHave : mgr.HaveSpecDef t = true := by
    unfold P4GoSpecMgr.HaveSpecDef
    rw [hsd]
    rfl
  have hp' : parseForm sd x = some d := by
    unfold ParseSpec at hp
    rw [if_pos hHave] at hp
    unfold P4GoSpecMgr.StringToSpec at hp
    rw [hsd] at hp
    exact hp
  obtain ⟨raw, hvd, hd⟩ := parseForm_inv hp'
  subst hd
  have hfix := parse_render_parse sd raw hsane hvd
  refine ⟨?_, ?_⟩
  · unfold FormatSpec
    rw [if_pos hHave]
    unfold P4GoSpecMgr.SpecToString
    rw [hsd]
  · unfold ParseSpec
    rw [if_pos hHave]
    unfold P4GoSpecMgr.StringToSpec
    rw [hsd]
    exact hfix

theorem parse_format_roundtrip_witness :
    FormatSpec mgr0 "branch".toList d0w = some (renderForm sdBranch d0w)
      ∧ ParseSpec mgr0 "branch".toList (renderForm sdBranch d0w) = some d0w :=
  parse_format_roundtrip mgr0 "branch".toList sdBranch form0 d0w
    (by rfl) (by decide) (by rfl)

theorem flattenVals_keys :
    ∀ (vals : List (SpecElem × List Str)) (p : Str × Str), p ∈ flattenVals vals →
      ∃ q ∈ vals, ∃ ds : Str, (∀ c ∈ ds, c.isDigit = true) ∧ p.1 = q.1.tag ++ ds := by
  intro vals
  induction vals with
  | nil => intro p hp; simp [flattenVals] at hp
  | cons q vals' ih =>
    intro p hp
    obtain ⟨el, vs⟩ := q
    rw [show flattenVals ((el, vs) :: vals')
        = flattenElem el vs ++ flattenVals vals' from rfl] at hp
    rcases List.mem_append.mp hp with h1 | h2
    · obtain ⟨ds, hds, hkey⟩ := flattenElem_keys el vs p h1
      exact ⟨(el, vs), List.mem_cons_self _ _, ds, hds, hkey⟩
    · obtain ⟨q', hq', ds, hds, hkey⟩ := ih p h2
      exact ⟨q', List.mem_cons_of_mem _ hq', ds, hds, hkey⟩

/-- C7 counterexample: a server record with an extra field (`extraTag0`
naming target `Foo`) converts to a spec whose side `extras` dictionary holds
the captured pair, but the spec's key/value iteration (`SpecDataGetKeyPair`
walks only the parsed dictionary) does not expose `Foo` — the extra field is
not re-exposed in the spec dictionary. -/
theorem extras_not_in_keypairs :
    strDictToSpec sdJob dictExtra = some spec7
      ∧ spec7.extras = [("Foo".toList, "bar".toList)]
      ∧ lookupStr (specDataKeyPairs spec7) "Foo".toList = none := by
  refine ⟨?_, ?_, ?_⟩ <;> rfl

/-- C7 (amended): `StrDictToSpec` captures the `extraTagN` fields of a server
record in the spec's separate `extras` dictionary, keyed by target name — but
every key the spec's key/value iteration exposes is schema-derived (a schema
tag, possibly with a digit suffix), so the extra fields are preserved in
`extras` rather than re-exposed through `SpecDataGetKeyPair`. -/
theorem strdict_extras (sd : SpecDef) (dict : Dict) (sp : P4GoSpecData)
    (h : strDictToSpec sd dict = some sp) :
    sp.extras = collectExtras dict
      ∧ ∀ p ∈ specDataKeyPairs sp, ∃ el ∈ sd, ∃ ds : Str,
          (∀ c ∈ ds, c.isDigit = true) ∧ p.1 = el.tag ++ ds := by
  unfold strDictToSpec at h
  cases hp : parseForm sd (renderForm sd dict) with
  | none => rw [hp] at h; exact Option.noConfusion h
  | some d =>
    rw [hp] at h
    injection h with h
    subst h
    refine ⟨rfl, ?_⟩
    intro p hmem
    obtain ⟨raw, hvd, hd⟩ := parseForm_inv hp
    rw [show specDataKeyPairs { dict := d, extras := collectExtras dict } = d from rfl,
      hd] at hmem
    obtain ⟨q, hq, ds, hds, hkey⟩ := flattenVals_keys (specVals sd raw) p hmem
    obtain ⟨hel, _⟩ := specVals_mem sd raw q.1 q.2 hq
    exact ⟨q.1, hel, ds, hds, hkey⟩

theorem strdict_extras_witness : spec7.extras = collectExtras dictExtra :=
  (strdict_extras sdJob dictExtra spec7 (by rfl)).1

end P4Go
